import Mathlib

/-!
# A sequential model of the `PubSub` broadcaster (`main.go`)

The Go program keeps a slice of unbuffered channels and offers three
operations, `Subscribe`, `Publish` and `Close`.  Channels are references, so
the model keeps a heap of channel cells addressed by handles (natural
numbers); the `Subscribers` slice holds handles.

The model is sequential: operations run one after the other, so the
readers-writer mutex taken at the entry of each operation and released by the
deferred unlock is always free on entry and is left out.  Every receiver
accepts each handoff, so a send on an open channel completes and appends the
value to what that channel has delivered.  The two run-time panics of Go
channels (send on a closed channel, close of a closed channel) are the error
branch of the model.
-/

namespace PubSubModel

/-- One `chan T` cell of the heap: the values handed to its receiver so far
and whether `close` was called on it. -/
structure Chan (T : Type) where
  delivered : List T
  closed : Bool
deriving DecidableEq, Repr

/-- Channel operations, recorded in the order in which they are performed. -/
inductive Event (T : Type) where
  | make (h : Nat)
  | send (h : Nat) (v : T)
  | close (h : Nat)
deriving DecidableEq, Repr

/-- Run-time panics of the channel primitives.  `noChannel` stands for a handle
that points outside the heap; the program never builds one (every handle comes
from `make`), the model reports it rather than guessing a behaviour. -/
inductive Fault where
  | sendOnClosed (h : Nat)
  | closeOfClosed (h : Nat)
  | noChannel (h : Nat)
deriving DecidableEq, Repr

/-- The fields of `type PubSub[T any] struct` that carry data: the slice of
subscriber channels (as handles) and the `closed` flag. -/
structure PubSub where
  Subscribers : List Nat
  closed : Bool
deriving DecidableEq, Repr

/-- The broadcaster together with the channel heap it refers to and the log of
channel operations performed so far. -/
structure World (T : Type) where
  ps : PubSub
  chans : List (Chan T)
  trace : List (Event T)
deriving DecidableEq, Repr

/-- `NewPubSub`: a zero-valued struct, that is a nil slice and `closed = false`. -/
def NewPubSub {T : Type} : World T :=
  { ps := { Subscribers := [], closed := false }, chans := [], trace := [] }

/-- `make(chan T)`: allocate a fresh open, unbuffered channel and return its handle. -/
def chanMake {T : Type} (w : World T) : World T × Nat :=
  ({ w with chans := w.chans ++ [{ delivered := [], closed := false }],
            trace := w.trace ++ [Event.make w.chans.length] },
   w.chans.length)

/-- `ch <- value` with a receiver that accepts: panics on a closed channel,
otherwise hands the value over. -/
def chanSend {T : Type} (w : World T) (h : Nat) (v : T) : Except Fault (World T) :=
  match w.chans[h]? with
  | none => Except.error (Fault.noChannel h)
  | some c =>
    if c.closed then Except.error (Fault.sendOnClosed h)
    else Except.ok
      { w with chans := w.chans.set h { c with delivered := c.delivered ++ [v] },
               trace := w.trace ++ [Event.send h v] }

/-- `close(ch)`: panics on an already closed channel, otherwise marks it closed. -/
def chanClose {T : Type} (w : World T) (h : Nat) : Except Fault (World T) :=
  match w.chans[h]? with
  | none => Except.error (Fault.noChannel h)
  | some c =>
    if c.closed then Except.error (Fault.closeOfClosed h)
    else Except.ok
      { w with chans := w.chans.set h { c with closed := true },
               trace := w.trace ++ [Event.close h] }

/-- The loop `for _, ch := range s.Subscribers { ch <- value }`. -/
def sendAll {T : Type} (v : T) : List Nat → World T → Except Fault (World T)
  | [], w => Except.ok w
  | ch :: rest, w =>
    match chanSend w ch v with
    | Except.error e => Except.error e
    | Except.ok w1 => sendAll v rest w1

/-- The loop `for _, ch := range s.Subscribers { close(ch) }`. -/
def closeAll {T : Type} : List Nat → World T → Except Fault (World T)
  | [], w => Except.ok w
  | ch :: rest, w =>
    match chanClose w ch with
    | Except.error e => Except.error e
    | Except.ok w1 => closeAll rest w1

/-- `Subscribe`: `nil` (here `none`) when closed, otherwise a fresh channel
appended to `Subscribers` and returned. -/
def Subscribe {T : Type} (w : World T) : World T × Option Nat :=
  if w.ps.closed then (w, none)
  else
    let (w1, r) := chanMake w
    ({ w1 with ps := { w1.ps with Subscribers := w1.ps.Subscribers ++ [r] } }, some r)

/-- `Publish`: returns at once when closed, otherwise sends the value on every
subscriber channel in slice order. -/
def Publish {T : Type} (w : World T) (value : T) : Except Fault (World T) :=
  if w.ps.closed then Except.ok w
  else sendAll value w.ps.Subscribers w

/-- `Close`: returns at once when closed, otherwise closes every subscriber
channel in slice order and then sets `closed`. -/
def Close {T : Type} (w : World T) : Except Fault (World T) :=
  if w.ps.closed then Except.ok w
  else
    match closeAll w.ps.Subscribers w with
    | Except.error e => Except.error e
    | Except.ok w1 => Except.ok { w1 with ps := { w1.ps with closed := true } }

/-- A call of one of the three operations. -/
inductive Op (T : Type) where
  | subscribe
  | publish (v : T)
  | close
deriving DecidableEq, Repr

/-- Perform one call; the endpoint returned by `Subscribe` is dropped here. -/
def step {T : Type} (w : World T) : Op T → Except Fault (World T)
  | Op.subscribe => Except.ok (Subscribe w).1
  | Op.publish v => Publish w v
  | Op.close => Close w

/-- Perform a sequence of calls, stopping at the first panic. -/
def run {T : Type} (w : World T) : List (Op T) → Except Fault (World T)
  | [] => Except.ok w
  | op :: ops =>
    match step w op with
    | Except.error e => Except.error e
    | Except.ok w1 => run w1 ops

/-- Call `Subscribe` `n` times in a row, keeping every returned endpoint, as
`main` does for `s1` and `s2`. -/
def subscribeN {T : Type} : Nat → World T → World T × List (Option Nat)
  | 0, w => (w, [])
  | n + 1, w =>
    let (w1, r) := Subscribe w
    let (w2, rs) := subscribeN n w1
    (w2, r :: rs)

/-- What the receiver of endpoint `h` has been handed so far. -/
def deliveredTo {T : Type} (w : World T) (h : Nat) : Option (List T) :=
  (w.chans[h]?).map Chan.delivered

/-- Whether `close` has been called on endpoint `h`. -/
def isClosed {T : Type} (w : World T) (h : Nat) : Option Bool :=
  (w.chans[h]?).map Chan.closed

/-- The handles on which the log records a `close`, in order. -/
def closesOf {T : Type} : List (Event T) → List Nat
  | [] => []
  | Event.close h :: es => h :: closesOf es
  | _ :: es => closesOf es

/-- The `(handle, value)` pairs of the sends recorded in the log, in order. -/
def sendsOf {T : Type} : List (Event T) → List (Nat × T)
  | [] => []
  | Event.send h v :: es => (h, v) :: sendsOf es
  | _ :: es => sendsOf es

/-- The values of the `Publish` calls of a call sequence that come before its
first `Close`, in order. -/
def publishedBeforeClose {T : Type} : List (Op T) → List T
  | [] => []
  | Op.subscribe :: ops => publishedBeforeClose ops
  | Op.publish v :: ops => v :: publishedBeforeClose ops
  | Op.close :: _ => []

/-- The data-model invariant of a broadcaster: the registry holds distinct
live channels, and each of them is closed exactly when the broadcaster is. -/
def WellFormed {T : Type} (w : World T) : Prop :=
  w.ps.Subscribers.Nodup ∧
  ∀ h ∈ w.ps.Subscribers, isClosed w h = some w.ps.closed

instance instDecidableWellFormed {T : Type} (w : World T) : Decidable (WellFormed w) := by
  unfold WellFormed
  infer_instance

/-- A sample state: `NewPubSub`, two `Subscribe` calls, then `Publish 5`. -/
def twoSubs : World Nat :=
  { ps := { Subscribers := [0, 1], closed := false },
    chans := [⟨[5], false⟩, ⟨[5], false⟩],
    trace := [Event.make 0, Event.make 1, Event.send 0 5, Event.send 1 5] }

/-- A sample state: `twoSubs` after `Close`. -/
def twoSubsClosed : World Nat :=
  { ps := { Subscribers := [0, 1], closed := true },
    chans := [⟨[5], true⟩, ⟨[5], true⟩],
    trace := [Event.make 0, Event.make 1, Event.send 0 5, Event.send 1 5,
              Event.close 0, Event.close 1] }

/-- A sample state: `NewPubSub` after one `Subscribe`. -/
def oneSub : World Nat :=
  { ps := { Subscribers := [0], closed := false },
    chans := [⟨[], false⟩],
    trace := [Event.make 0] }

/-- A sample state: `oneSub` after `Publish 5`. -/
def oneSubGot : World Nat :=
  { ps := { Subscribers := [0], closed := false },
    chans := [⟨[5], false⟩],
    trace := [Event.make 0, Event.send 0 5] }

/-- The scenario of `main`: two subscribers, three values, then `Close`. -/
def mainRun : Except Fault (World String) :=
  run (subscribeN 2 NewPubSub).1
    [Op.publish "one", Op.publish "two", Op.publish "three", Op.close]

/-- How a call ends when a receiver may fail to take a handoff: it returns, it
stays parked forever in the send on endpoint `h`, or it panics. -/
inductive Outcome (T : Type) where
  | returned (w : World T)
  | blocked (w : World T) (h : Nat)
  | panicked (f : Fault)
deriving DecidableEq, Repr

/-- `ch <- value` on a channel made by `make(chan T)`, which has no buffer: the
send completes only by handing the value to the receiver.  `ready h` says
whether the receiver of `h` accepts; if it never does the sender stays parked
and the channel is untouched.  A closed channel panics either way. -/
def chanSendWith {T : Type} (ready : Nat → Bool) (w : World T) (h : Nat) (v : T) :
    Outcome T :=
  match chanSend w h v with
  | Except.error f => Outcome.panicked f
  | Except.ok w1 => if ready h then Outcome.returned w1 else Outcome.blocked w h

/-- The loop `for _, ch := range s.Subscribers { ch <- value }` with receivers
that may not accept: the loop goes on to the next channel only after the
current send has completed. -/
def sendAllWith {T : Type} (ready : Nat → Bool) (v : T) :
    List Nat → World T → Outcome T
  | [], w => Outcome.returned w
  | ch :: rest, w =>
    match chanSendWith ready w ch v with
    | Outcome.returned w1 => sendAllWith ready v rest w1
    | Outcome.blocked w1 h => Outcome.blocked w1 h
    | Outcome.panicked f => Outcome.panicked f

/-- `Publish` with receivers that may not accept. -/
def PublishWith {T : Type} (ready : Nat → Bool) (w : World T) (value : T) : Outcome T :=
  if w.ps.closed then Outcome.returned w
  else sendAllWith ready value w.ps.Subscribers w

/-- The outcome of a call all of whose sends are accepted. -/
def Outcome.ofExcept {T : Type} : Except Fault (World T) → Outcome T
  | Except.ok w => Outcome.returned w
  | Except.error f => Outcome.panicked f

/-! ### Concurrent callers

Several goroutines call the three methods at once.  Each call is cut into the
steps between which another goroutine may run: taking the mutex, each test,
each channel operation, each assignment, and the deferred release.  The
scheduler picks, step by step, which goroutine moves; a goroutine whose
`Lock` or `RLock` cannot be granted does not move.  Memory is sequentially
consistent and every send is accepted.
-/

/-- The state of a `sync.RWMutex`: whether `Lock` is held and how many `RLock`
holders there are. -/
structure RWMutex where
  writer : Bool
  readers : Nat
deriving DecidableEq, Repr

/-- `Lock` is granted when nobody holds the mutex in either mode. -/
def RWMutex.canLock (m : RWMutex) : Bool := !m.writer && m.readers == 0

/-- `RLock` is granted when no writer holds the mutex. -/
def RWMutex.canRLock (m : RWMutex) : Bool := !m.writer

/-- Where a goroutine stands inside its call. -/
inductive Pc (T : Type) where
  | start (op : Op T)
  | subCheck
  | subMake
  | subAppend (r : Nat)
  | pubCheck (v : T)
  | pubLoop (v : T) (rest : List Nat)
  | closeCheck
  | closeLoop (rest : List Nat)
  | closeSet
  | unlockW (ret : Option Nat)
  | unlockR
  | unwindW (f : Fault)
  | unwindR (f : Fault)
  | done (ret : Option Nat)
  | panicked (f : Fault)
deriving DecidableEq, Repr

/-- The goroutine is between `s.mu.Lock()` and the deferred `s.mu.Unlock()`. -/
def Pc.holdsW {T : Type} : Pc T → Bool
  | Pc.subCheck => true
  | Pc.subMake => true
  | Pc.subAppend _ => true
  | Pc.closeCheck => true
  | Pc.closeLoop _ => true
  | Pc.closeSet => true
  | Pc.unlockW _ => true
  | Pc.unwindW _ => true
  | _ => false

/-- The goroutine is between `s.mu.RLock()` and the deferred `s.mu.RUnlock()`. -/
def Pc.holdsR {T : Type} : Pc T → Bool
  | Pc.pubCheck _ => true
  | Pc.pubLoop _ _ => true
  | Pc.unlockR => true
  | Pc.unwindR _ => true
  | _ => false

/-- One step of one goroutine, following the statements of `Subscribe`,
`Publish` and `Close` in order.  `start` takes the mutex in the mode the
method asks for, or stays if it is not granted; a fault goes to the deferred
release and then to `panicked`. -/
def stepPc {T : Type} (mu : RWMutex) (w : World T) : Pc T → RWMutex × World T × Pc T
  | Pc.start Op.subscribe =>
    if mu.canLock then ({ mu with writer := true }, w, Pc.subCheck)
    else (mu, w, Pc.start Op.subscribe)
  | Pc.start (Op.publish v) =>
    if mu.canRLock then ({ mu with readers := mu.readers + 1 }, w, Pc.pubCheck v)
    else (mu, w, Pc.start (Op.publish v))
  | Pc.start Op.close =>
    if mu.canLock then ({ mu with writer := true }, w, Pc.closeCheck)
    else (mu, w, Pc.start Op.close)
  | Pc.subCheck =>
    if w.ps.closed then (mu, w, Pc.unlockW none) else (mu, w, Pc.subMake)
  | Pc.subMake => (mu, (chanMake w).1, Pc.subAppend (chanMake w).2)
  | Pc.subAppend r =>
    (mu, { w with ps := { w.ps with Subscribers := w.ps.Subscribers ++ [r] } },
      Pc.unlockW (some r))
  | Pc.pubCheck v =>
    if w.ps.closed then (mu, w, Pc.unlockR) else (mu, w, Pc.pubLoop v w.ps.Subscribers)
  | Pc.pubLoop _ [] => (mu, w, Pc.unlockR)
  | Pc.pubLoop v (ch :: rest) =>
    match chanSend w ch v with
    | Except.error f => (mu, w, Pc.unwindR f)
    | Except.ok w1 => (mu, w1, Pc.pubLoop v rest)
  | Pc.closeCheck =>
    if w.ps.closed then (mu, w, Pc.unlockW none) else (mu, w, Pc.closeLoop w.ps.Subscribers)
  | Pc.closeLoop [] => (mu, w, Pc.closeSet)
  | Pc.closeLoop (ch :: rest) =>
    match chanClose w ch with
    | Except.error f => (mu, w, Pc.unwindW f)
    | Except.ok w1 => (mu, w1, Pc.closeLoop rest)
  | Pc.closeSet => (mu, { w with ps := { w.ps with closed := true } }, Pc.unlockW none)
  | Pc.unlockW ret => ({ mu with writer := false }, w, Pc.done ret)
  | Pc.unlockR => ({ mu with readers := mu.readers - 1 }, w, Pc.done none)
  | Pc.unwindW f => ({ mu with writer := false }, w, Pc.panicked f)
  | Pc.unwindR f => ({ mu with readers := mu.readers - 1 }, w, Pc.panicked f)
  | Pc.done ret => (mu, w, Pc.done ret)
  | Pc.panicked f => (mu, w, Pc.panicked f)

/-- The mutex, the shared broadcaster and the goroutines. -/
structure Config (T : Type) where
  mu : RWMutex
  world : World T
  threads : List (Pc T)
deriving DecidableEq, Repr

/-- Goroutine `i` takes one step. -/
def stepThread {T : Type} (c : Config T) (i : Nat) : Config T :=
  match c.threads[i]? with
  | none => c
  | some pc =>
    { mu := (stepPc c.mu c.world pc).1,
      world := (stepPc c.mu c.world pc).2.1,
      threads := c.threads.set i (stepPc c.mu c.world pc).2.2 }

/-- Run a schedule: the list names the goroutine that moves at each step. -/
def runSched {T : Type} (c : Config T) : List Nat → Config T
  | [] => c
  | i :: sched => runSched (stepThread c i) sched

/-- All calls are about to start, and the mutex is free. -/
def initConfig {T : Type} (w : World T) (ops : List (Op T)) : Config T :=
  { mu := { writer := false, readers := 0 }, world := w, threads := ops.map Pc.start }

/-- The configuration reached when the calls `ops` are started on `w` and the
goroutines are run by the schedule `sched`. -/
def reached {T : Type} (w : World T) (ops : List (Op T)) (sched : List Nat) : Config T :=
  runSched (initConfig w ops) sched

/-- The mutex state agrees with the goroutines that are inside a call: `writer`
is set exactly when one goroutine is inside `Subscribe` or `Close` and none
otherwise, `readers` counts the goroutines inside `Publish`, and a writer
excludes readers. -/
def LockInv {T : Type} (c : Config T) : Prop :=
  c.threads.countP Pc.holdsW = (if c.mu.writer then 1 else 0) ∧
  c.threads.countP Pc.holdsR = c.mu.readers ∧
  (c.mu.writer = true → c.mu.readers = 0)

/-! ## The channel primitives -/

theorem chanSend_ok {T : Type} (w : World T) (h : Nat) (v : T) (c : Chan T)
    (hc : w.chans[h]? = some c) (ho : c.closed = false) :
    chanSend w h v = Except.ok
      { w with chans := w.chans.set h { c with delivered := c.delivered ++ [v] },
               trace := w.trace ++ [Event.send h v] } := by
  simp [chanSend, hc, ho]

theorem chanClose_ok {T : Type} (w : World T) (h : Nat) (c : Chan T)
    (hc : w.chans[h]? = some c) (ho : c.closed = false) :
    chanClose w h = Except.ok
      { w with chans := w.chans.set h { c with closed := true },
               trace := w.trace ++ [Event.close h] } := by
  simp [chanClose, hc, ho]

theorem getElem?_lt_of_some {α : Type} {l : List α} {i : Nat} {a : α}
    (h : l[i]? = some a) : i < l.length := by
  rcases List.getElem?_eq_some.mp h with ⟨hi, _⟩
  exact hi

theorem isClosed_eq_some {T : Type} (w : World T) (h : Nat) (b : Bool) :
    isClosed w h = some b ↔ ∃ c, w.chans[h]? = some c ∧ c.closed = b := by
  simp [isClosed]

/-- The send loop over distinct open channels completes, touches only the
listed channels, hands each of them the value once and logs the sends in
list order. -/
theorem sendAll_spec {T : Type} (v : T) (hs : List Nat) :
    ∀ w : World T, hs.Nodup →
      (∀ h ∈ hs, ∃ c, w.chans[h]? = some c ∧ c.closed = false) →
      ∃ w1, sendAll v hs w = Except.ok w1 ∧ w1.ps = w.ps ∧
        w1.trace = w.trace ++ hs.map (fun h => Event.send h v) ∧
        w1.chans.length = w.chans.length ∧
        (∀ h ∈ hs, ∀ c, w.chans[h]? = some c →
          w1.chans[h]? = some { c with delivered := c.delivered ++ [v] }) ∧
        (∀ h, h ∉ hs → w1.chans[h]? = w.chans[h]?) := by
  induction hs with
  | nil =>
    intro w _ _
    exact ⟨w, rfl, rfl, by simp, rfl, by simp, fun _ _ => rfl⟩
  | cons a rest ih =>
    intro w hnd hopen
    obtain ⟨c, hc, ho⟩ := hopen a (List.mem_cons_self a rest)
    have hna : a ∉ rest := (List.nodup_cons.mp hnd).1
    have hndr : rest.Nodup := (List.nodup_cons.mp hnd).2
    have hlt : a < w.chans.length := getElem?_lt_of_some hc
    obtain ⟨w1, hrun, hps, htr, hlen, hin, hout⟩ :=
      ih { w with chans := w.chans.set a { c with delivered := c.delivered ++ [v] },
                  trace := w.trace ++ [Event.send a v] } hndr (by
        intro h hh
        obtain ⟨c2, hc2, ho2⟩ := hopen h (List.mem_cons_of_mem a hh)
        have hne : a ≠ h := fun e => hna (e ▸ hh)
        exact ⟨c2, by simp [List.getElem?_set_ne hne, hc2], ho2⟩)
    refine ⟨w1, ?_, hps, ?_, ?_, ?_, ?_⟩
    · simp [sendAll, chanSend_ok w a v c hc ho, hrun]
    · simp [htr]
    · simpa using hlen
    · intro h hh c2 hc2
      rcases List.mem_cons.mp hh with e | hr
      · subst e
        rw [hout h hna]
        have : c2 = c := by rw [hc] at hc2; exact (Option.some.inj hc2).symm
        subst this
        simp [List.getElem?_set_self hlt]
      · have hne : a ≠ h := fun e => hna (e ▸ hr)
        exact hin h hr c2 (by simp [List.getElem?_set_ne hne, hc2])
    · intro h hh
      have hne : a ≠ h := fun e => hh (e ▸ List.mem_cons_self a rest)
      have hnr : h ∉ rest := fun hr => hh (List.mem_cons_of_mem a hr)
      rw [hout h hnr]
      simp [List.getElem?_set_ne hne]

/-- The close loop over distinct open channels completes, closes exactly the
listed channels, each once, and delivers nothing. -/
theorem closeAll_spec {T : Type} (hs : List Nat) :
    ∀ w : World T, hs.Nodup →
      (∀ h ∈ hs, ∃ c, w.chans[h]? = some c ∧ c.closed = false) →
      ∃ w1, closeAll hs w = Except.ok w1 ∧ w1.ps = w.ps ∧
        w1.trace = w.trace ++ hs.map (fun h => Event.close h) ∧
        w1.chans.length = w.chans.length ∧
        (∀ h ∈ hs, ∀ c, w.chans[h]? = some c →
          w1.chans[h]? = some { c with closed := true }) ∧
        (∀ h, h ∉ hs → w1.chans[h]? = w.chans[h]?) := by
  induction hs with
  | nil =>
    intro w _ _
    exact ⟨w, rfl, rfl, by simp, rfl, by simp, fun _ _ => rfl⟩
  | cons a rest ih =>
    intro w hnd hopen
    obtain ⟨c, hc, ho⟩ := hopen a (List.mem_cons_self a rest)
    have hna : a ∉ rest := (List.nodup_cons.mp hnd).1
    have hndr : rest.Nodup := (List.nodup_cons.mp hnd).2
    have hlt : a < w.chans.length := getElem?_lt_of_some hc
    obtain ⟨w1, hrun, hps, htr, hlen, hin, hout⟩ :=
      ih { w with chans := w.chans.set a { c with closed := true },
                  trace := w.trace ++ [Event.close a] } hndr (by
        intro h hh
        obtain ⟨c2, hc2, ho2⟩ := hopen h (List.mem_cons_of_mem a hh)
        have hne : a ≠ h := fun e => hna (e ▸ hh)
        exact ⟨c2, by simp [List.getElem?_set_ne hne, hc2], ho2⟩)
    refine ⟨w1, ?_, hps, ?_, ?_, ?_, ?_⟩
    · simp [closeAll, chanClose_ok w a c hc ho, hrun]
    · simp [htr]
    · simpa using hlen
    · intro h hh c2 hc2
      rcases List.mem_cons.mp hh with e | hr
      · subst e
        rw [hout h hna]
        have : c2 = c := by rw [hc] at hc2; exact (Option.some.inj hc2).symm
        subst this
        simp [List.getElem?_set_self hlt]
      · have hne : a ≠ h := fun e => hna (e ▸ hr)
        exact hin h hr c2 (by simp [List.getElem?_set_ne hne, hc2])
    · intro h hh
      have hne : a ≠ h := fun e => hh (e ▸ List.mem_cons_self a rest)
      have hnr : h ∉ rest := fun hr => hh (List.mem_cons_of_mem a hr)
      rw [hout h hnr]
      simp [List.getElem?_set_ne hne]

/-! ## The three operations on a closed broadcaster -/

theorem Subscribe_closed {T : Type} (w : World T) (hc : w.ps.closed = true) :
    Subscribe w = (w, none) := by
  simp [Subscribe, hc]

theorem Publish_closed {T : Type} (w : World T) (v : T) (hc : w.ps.closed = true) :
    Publish w v = Except.ok w := by
  simp [Publish, hc]

theorem Close_closed {T : Type} (w : World T) (hc : w.ps.closed = true) :
    Close w = Except.ok w := by
  simp [Close, hc]

theorem step_closed {T : Type} (w : World T) (op : Op T) (hc : w.ps.closed = true) :
    step w op = Except.ok w := by
  cases op with
  | subscribe => simp [step, Subscribe_closed w hc]
  | publish v => simp [step, Publish_closed w v hc]
  | close => simp [step, Close_closed w hc]

/-- Once closed, no sequence of calls changes anything. -/
theorem run_closed {T : Type} (w : World T) (ops : List (Op T)) (hc : w.ps.closed = true) :
    run w ops = Except.ok w := by
  induction ops with
  | nil => rfl
  | cons op ops ih => simp [run, step_closed w op hc, ih]

/-- Whatever state `Close` returns has the flag set. -/
theorem Close_sets_closed {T : Type} (w w1 : World T) (h : Close w = Except.ok w1) :
    w1.ps.closed = true := by
  unfold Close at h
  by_cases hc : w.ps.closed = true
  · simp [hc] at h
    rw [← h]; exact hc
  · simp [hc] at h
    split at h
    · cases h
    · cases h
      rfl

/-! ## The three operations on an open, well-formed broadcaster -/

theorem Subscribe_open {T : Type} (w : World T) (ho : w.ps.closed = false) :
    Subscribe w =
      ({ ps := { Subscribers := w.ps.Subscribers ++ [w.chans.length], closed := w.ps.closed },
         chans := w.chans ++ [{ delivered := [], closed := false }],
         trace := w.trace ++ [Event.make w.chans.length] },
       some w.chans.length) := by
  simp [Subscribe, chanMake, ho]

theorem open_of_wf {T : Type} (w : World T) (hwf : WellFormed w) (ho : w.ps.closed = false) :
    ∀ h ∈ w.ps.Subscribers, ∃ c, w.chans[h]? = some c ∧ c.closed = false := by
  intro h hh
  have := hwf.2 h hh
  rw [ho] at this
  exact (isClosed_eq_some w h false).mp this

theorem Publish_open {T : Type} (w : World T) (v : T) (hwf : WellFormed w)
    (ho : w.ps.closed = false) :
    ∃ w1, Publish w v = Except.ok w1 ∧ w1.ps = w.ps ∧
      w1.trace = w.trace ++ w.ps.Subscribers.map (fun h => Event.send h v) ∧
      w1.chans.length = w.chans.length ∧
      (∀ h ∈ w.ps.Subscribers, ∀ c, w.chans[h]? = some c →
        w1.chans[h]? = some { c with delivered := c.delivered ++ [v] }) ∧
      (∀ h, h ∉ w.ps.Subscribers → w1.chans[h]? = w.chans[h]?) := by
  obtain ⟨w1, hrun, rest⟩ := sendAll_spec v w.ps.Subscribers w hwf.1 (open_of_wf w hwf ho)
  exact ⟨w1, by simp [Publish, ho, hrun], rest⟩

theorem Close_open {T : Type} (w : World T) (hwf : WellFormed w)
    (ho : w.ps.closed = false) :
    ∃ w1, Close w = Except.ok w1 ∧
      w1.ps = { Subscribers := w.ps.Subscribers, closed := true } ∧
      w1.trace = w.trace ++ w.ps.Subscribers.map (fun h => Event.close h) ∧
      w1.chans.length = w.chans.length ∧
      (∀ h ∈ w.ps.Subscribers, ∀ c, w.chans[h]? = some c →
        w1.chans[h]? = some { c with closed := true }) ∧
      (∀ h, h ∉ w.ps.Subscribers → w1.chans[h]? = w.chans[h]?) := by
  obtain ⟨w1, hrun, hps, htr, hlen, hin, hout⟩ :=
    closeAll_spec w.ps.Subscribers w hwf.1 (open_of_wf w hwf ho)
  refine ⟨{ w1 with ps := { w1.ps with closed := true } }, ?_, ?_, htr, hlen, hin, hout⟩
  · simp [Close, ho, hrun]
  · simp [hps]

/-! ## Well-formedness is kept by every operation -/

theorem WellFormed_NewPubSub {T : Type} : WellFormed (NewPubSub : World T) := by
  simp [WellFormed, NewPubSub]

theorem WellFormed_Subscribe {T : Type} (w : World T) (hwf : WellFormed w) :
    WellFormed (Subscribe w).1 := by
  by_cases hc : w.ps.closed = true
  · rw [Subscribe_closed w hc]; exact hwf
  · have ho : w.ps.closed = false := by simpa using hc
    rw [Subscribe_open w ho]
    have hlt : ∀ h ∈ w.ps.Subscribers, h < w.chans.length := by
      intro h hh
      obtain ⟨c, hc2, _⟩ := open_of_wf w hwf ho h hh
      exact getElem?_lt_of_some hc2
    constructor
    · simp only
      rw [List.nodup_append]
      refine ⟨hwf.1, List.nodup_singleton _, ?_⟩
      intro a ha hb
      rw [List.mem_singleton] at hb
      have := hlt a ha
      omega
    · intro h hh
      simp only at hh
      rcases List.mem_append.mp hh with hm | hm
      · have h1 := hwf.2 h hm
        simp only [isClosed] at h1 ⊢
        rw [List.getElem?_append_left (hlt h hm)]
        exact h1
      · rw [List.mem_singleton] at hm
        subst hm
        simp [isClosed, ho]

theorem WellFormed_Publish {T : Type} (w w1 : World T) (v : T) (hwf : WellFormed w)
    (h : Publish w v = Except.ok w1) : WellFormed w1 := by
  by_cases hc : w.ps.closed = true
  · rw [Publish_closed w v hc] at h
    cases h; exact hwf
  · have ho : w.ps.closed = false := by simpa using hc
    obtain ⟨w2, hrun, hps, _, _, hin, _⟩ := Publish_open w v hwf ho
    rw [hrun] at h
    cases h
    refine ⟨by rw [hps]; exact hwf.1, ?_⟩
    intro a ha
    rw [hps] at ha ⊢
    obtain ⟨c, hc2, hcl⟩ := (isClosed_eq_some w a _).mp (hwf.2 a ha)
    rw [isClosed_eq_some]
    exact ⟨_, hin a ha c hc2, hcl⟩

theorem WellFormed_Close {T : Type} (w w1 : World T) (hwf : WellFormed w)
    (h : Close w = Except.ok w1) : WellFormed w1 := by
  by_cases hc : w.ps.closed = true
  · rw [Close_closed w hc] at h
    cases h; exact hwf
  · have ho : w.ps.closed = false := by simpa using hc
    obtain ⟨w2, hrun, hps, _, _, hin, _⟩ := Close_open w hwf ho
    rw [hrun] at h
    cases h
    refine ⟨by rw [hps]; exact hwf.1, ?_⟩
    intro a ha
    rw [hps] at ha ⊢
    obtain ⟨c, hc2, _⟩ := (isClosed_eq_some w a _).mp (hwf.2 a ha)
    rw [isClosed_eq_some]
    exact ⟨_, hin a ha c hc2, rfl⟩

/-- On a well-formed broadcaster no call panics, and the result is well formed. -/
theorem step_wf {T : Type} (w : World T) (op : Op T) (hwf : WellFormed w) :
    ∃ w1, step w op = Except.ok w1 ∧ WellFormed w1 := by
  by_cases hc : w.ps.closed = true
  · exact ⟨w, step_closed w op hc, hwf⟩
  · have ho : w.ps.closed = false := by simpa using hc
    cases op with
    | subscribe => exact ⟨(Subscribe w).1, rfl, WellFormed_Subscribe w hwf⟩
    | publish v =>
      obtain ⟨w1, hrun, _⟩ := Publish_open w v hwf ho
      exact ⟨w1, hrun, WellFormed_Publish w w1 v hwf hrun⟩
    | close =>
      obtain ⟨w1, hrun, _⟩ := Close_open w hwf ho
      exact ⟨w1, hrun, WellFormed_Close w w1 hwf hrun⟩

theorem run_wf {T : Type} (ops : List (Op T)) :
    ∀ w : World T, WellFormed w → ∃ w1, run w ops = Except.ok w1 ∧ WellFormed w1 := by
  induction ops with
  | nil => intro w hwf; exact ⟨w, rfl, hwf⟩
  | cons op ops ih =>
    intro w hwf
    obtain ⟨w1, h1, hwf1⟩ := step_wf w op hwf
    obtain ⟨w2, h2, hwf2⟩ := ih w1 hwf1
    exact ⟨w2, by simp [run, h1, h2], hwf2⟩

theorem run_append {T : Type} (xs ys : List (Op T)) :
    ∀ (w w1 : World T), run w xs = Except.ok w1 → run w (xs ++ ys) = run w1 ys := by
  induction xs with
  | nil => intro w w1 h; cases h; rfl
  | cons op xs ih =>
    intro w w1 h
    simp only [run, List.cons_append] at h ⊢
    split at h
    · cases h
    · rename_i w2 _
      exact ih w2 w1 h

/-! ## What a run delivers to a registered endpoint -/

theorem publishedBeforeClose_publishes {T : Type} (vs : List T) :
    publishedBeforeClose (vs.map Op.publish ++ [Op.close]) = vs := by
  induction vs with
  | nil => rfl
  | cons v vs ih => simp [publishedBeforeClose, ih]

theorem deliveredTo_eq_some {T : Type} (w : World T) (h : Nat) (d : List T) :
    deliveredTo w h = some d ↔ ∃ c, w.chans[h]? = some c ∧ c.delivered = d := by
  simp [deliveredTo]

/-- From an open well-formed state, a run hands a registered endpoint exactly
the values published before the first `Close`, after what it already had. -/
theorem run_delivers {T : Type} (ops : List (Op T)) :
    ∀ (w : World T) (h : Nat) (d : List T), WellFormed w → w.ps.closed = false →
      h ∈ w.ps.Subscribers → deliveredTo w h = some d →
      ∃ w1, run w ops = Except.ok w1 ∧ WellFormed w1 ∧ h ∈ w1.ps.Subscribers ∧
        deliveredTo w1 h = some (d ++ publishedBeforeClose ops) := by
  induction ops with
  | nil =>
    intro w h d hwf _ hh hd
    exact ⟨w, rfl, hwf, hh, by simpa [publishedBeforeClose] using hd⟩
  | cons op ops ih =>
    intro w h d hwf ho hh hd
    obtain ⟨c, hc, hcd⟩ := (deliveredTo_eq_some w h d).mp hd
    have hlt : h < w.chans.length := getElem?_lt_of_some hc
    cases op with
    | subscribe =>
      have hwf1 := WellFormed_Subscribe w hwf
      have hs := Subscribe_open w ho
      obtain ⟨w1, hrun, hwf2, hh2, hd2⟩ := ih (Subscribe w).1 h d hwf1
        (by rw [hs]; exact ho)
        (by rw [hs]; exact List.mem_append_left _ hh)
        (by rw [hs]; simp only [deliveredTo]
            rw [List.getElem?_append_left hlt]; exact hd)
      exact ⟨w1, by simp [run, step, hrun], hwf2, hh2, by simpa [publishedBeforeClose] using hd2⟩
    | publish v =>
      obtain ⟨w1, hp, hps, _, _, hin, _⟩ := Publish_open w v hwf ho
      have hwf1 := WellFormed_Publish w w1 v hwf hp
      obtain ⟨w2, hrun, hwf2, hh2, hd2⟩ := ih w1 h (d ++ [v]) hwf1
        (by rw [hps]; exact ho) (by rw [hps]; exact hh)
        (by rw [deliveredTo_eq_some]; exact ⟨_, hin h hh c hc, by simp [hcd]⟩)
      exact ⟨w2, by simp [run, step, hp, hrun], hwf2, hh2,
        by simpa [publishedBeforeClose] using hd2⟩
    | close =>
      obtain ⟨w1, hcl, hps, _, _, hin, _⟩ := Close_open w hwf ho
      have hwf1 := WellFormed_Close w w1 hwf hcl
      have hc1 : w1.ps.closed = true := by rw [hps]
      refine ⟨w1, by simp [run, step, hcl, run_closed w1 ops hc1], hwf1, by rw [hps]; exact hh, ?_⟩
      rw [deliveredTo_eq_some]
      exact ⟨_, hin h hh c hc, by simp [publishedBeforeClose, hcd]⟩

/-- A successful `Subscribe` returns the fresh handle, registers it, and the new
endpoint has been handed nothing. -/
theorem Subscribe_some {T : Type} (w : World T) (h : Nat) (hs : (Subscribe w).2 = some h) :
    w.ps.closed = false ∧ h = w.chans.length ∧ h ∈ (Subscribe w).1.ps.Subscribers ∧
      (Subscribe w).1.ps.closed = false ∧ deliveredTo (Subscribe w).1 h = some [] := by
  by_cases hc : w.ps.closed = true
  · rw [Subscribe_closed w hc] at hs
    cases hs
  · have ho : w.ps.closed = false := by simpa using hc
    rw [Subscribe_open w ho] at hs ⊢
    have e : h = w.chans.length := by simpa using hs.symm
    subst e
    exact ⟨ho, rfl, by simp, ho, by simp [deliveredTo]⟩

/-- The heap never shrinks. -/
theorem step_chans_length {T : Type} (w w1 : World T) (op : Op T) (hwf : WellFormed w)
    (h : step w op = Except.ok w1) : w.chans.length ≤ w1.chans.length := by
  by_cases hc : w.ps.closed = true
  · rw [step_closed w op hc] at h
    cases h; exact Nat.le_refl _
  · have ho : w.ps.closed = false := by simpa using hc
    cases op with
    | subscribe =>
      simp only [step, Subscribe_open w ho] at h
      cases h
      simp
    | publish v =>
      obtain ⟨w2, hp, _, _, hlen, _, _⟩ := Publish_open w v hwf ho
      simp only [step, hp] at h
      cases h
      omega
    | close =>
      obtain ⟨w2, hp, _, _, hlen, _, _⟩ := Close_open w hwf ho
      simp only [step, hp] at h
      cases h
      omega

theorem run_chans_length {T : Type} (ops : List (Op T)) :
    ∀ (w w1 : World T), WellFormed w → run w ops = Except.ok w1 →
      w.chans.length ≤ w1.chans.length := by
  induction ops with
  | nil => intro w w1 _ h; cases h; exact Nat.le_refl _
  | cons op ops ih =>
    intro w w1 hwf h
    obtain ⟨w2, h2, hwf2⟩ := step_wf w op hwf
    simp only [run, h2] at h
    have a := step_chans_length w w2 op hwf h2
    have b := ih w2 w1 hwf2 h
    omega

/-- Every state reached from `NewPubSub` is well formed. -/
theorem reachable_wf {T : Type} (ops : List (Op T)) (w : World T)
    (h : run NewPubSub ops = Except.ok w) : WellFormed w := by
  obtain ⟨w1, h1, hwf⟩ := run_wf ops (NewPubSub : World T) WellFormed_NewPubSub
  rw [h1] at h
  cases h
  exact hwf

/-! ## The log of `close` operations -/

theorem closesOf_append {T : Type} (a b : List (Event T)) :
    closesOf (a ++ b) = closesOf a ++ closesOf b := by
  induction a with
  | nil => rfl
  | cons e a ih => cases e <;> simp [closesOf, ih]

theorem closesOf_sends {T : Type} (hs : List Nat) (v : T) :
    closesOf (hs.map (fun h => Event.send h v)) = [] := by
  induction hs with
  | nil => rfl
  | cons h hs ih => simp [closesOf, ih]

theorem closesOf_closes {T : Type} (hs : List Nat) :
    closesOf (hs.map (fun h => (Event.close h : Event T))) = hs := by
  induction hs with
  | nil => rfl
  | cons h hs ih => simp [closesOf, ih]

/-- The closes logged so far are those of the registry once the broadcaster is
closed, and none before; every call keeps this. -/
theorem step_closes {T : Type} (w w1 : World T) (op : Op T) (hwf : WellFormed w)
    (ht : closesOf w.trace = if w.ps.closed then w.ps.Subscribers else [])
    (h : step w op = Except.ok w1) :
    closesOf w1.trace = if w1.ps.closed then w1.ps.Subscribers else [] := by
  by_cases hc : w.ps.closed = true
  · rw [step_closed w op hc] at h
    cases h; exact ht
  · have ho : w.ps.closed = false := by simpa using hc
    rw [ho] at ht
    cases op with
    | subscribe =>
      simp only [step, Subscribe_open w ho] at h
      cases h
      simp only [closesOf_append, ho]
      simpa [closesOf] using ht
    | publish v =>
      obtain ⟨w2, hp, hps, htr, _, _, _⟩ := Publish_open w v hwf ho
      simp only [step, hp] at h
      cases h
      rw [htr, hps, ho, closesOf_append, closesOf_sends]
      simpa using ht
    | close =>
      obtain ⟨w2, hp, hps, htr, _, _, _⟩ := Close_open w hwf ho
      simp only [step, hp] at h
      cases h
      rw [htr, hps, closesOf_append, closesOf_closes]
      simpa using ht

theorem run_closes {T : Type} (ops : List (Op T)) :
    ∀ (w w1 : World T), WellFormed w →
      closesOf w.trace = (if w.ps.closed then w.ps.Subscribers else []) →
      run w ops = Except.ok w1 →
      closesOf w1.trace = if w1.ps.closed then w1.ps.Subscribers else [] := by
  induction ops with
  | nil => intro w w1 _ ht h; cases h; exact ht
  | cons op ops ih =>
    intro w w1 hwf ht h
    obtain ⟨w2, h2, hwf2⟩ := step_wf w op hwf
    simp only [run, h2] at h
    exact ih w2 w1 hwf2 (step_closes w w2 op hwf ht h2) h

/-! ## Repeated subscription -/

theorem subscribeN_open {T : Type} (n : Nat) :
    ∀ w : World T, w.ps.closed = false →
      subscribeN n w =
        ({ ps := { Subscribers := w.ps.Subscribers ++ List.range' w.chans.length n,
                   closed := w.ps.closed },
           chans := w.chans ++ List.replicate n { delivered := [], closed := false },
           trace := w.trace ++ (List.range' w.chans.length n).map Event.make },
         (List.range' w.chans.length n).map some) := by
  induction n with
  | zero => intro w _; simp [subscribeN]
  | succ n ih =>
    intro w ho
    have hs := Subscribe_open w ho
    have := ih (Subscribe w).1 (by rw [hs]; exact ho)
    simp only [subscribeN]
    rw [this, hs]
    simp [List.range'_succ, List.replicate_succ]

/-- After `N` subscriptions on a new broadcaster: the registry and the
returned endpoints are the handles `0 .. N-1`, all channels are open and
empty, and the state is well formed. -/
theorem subscribeN_NewPubSub {T : Type} (N : Nat) :
    (subscribeN N (NewPubSub : World T)).1.ps.Subscribers = List.range' 0 N ∧
    (subscribeN N (NewPubSub : World T)).1.ps.closed = false ∧
    (subscribeN N (NewPubSub : World T)).1.chans
      = List.replicate N { delivered := [], closed := false } ∧
    (subscribeN N (NewPubSub : World T)).2 = (List.range' 0 N).map some ∧
    WellFormed (subscribeN N (NewPubSub : World T)).1 := by
  have hN := subscribeN_open N (NewPubSub : World T) rfl
  have hsub : (subscribeN N (NewPubSub : World T)).1.ps.Subscribers = List.range' 0 N := by
    rw [hN]; simp [NewPubSub]
  have hopen : (subscribeN N (NewPubSub : World T)).1.ps.closed = false := by
    rw [hN]; rfl
  have hchans : (subscribeN N (NewPubSub : World T)).1.chans
      = List.replicate N { delivered := [], closed := false } := by
    rw [hN]; simp [NewPubSub]
  have hret : (subscribeN N (NewPubSub : World T)).2 = (List.range' 0 N).map some := by
    rw [hN]; simp [NewPubSub]
  have hwf : WellFormed (subscribeN N (NewPubSub : World T)).1 := by
    constructor
    · rw [hsub]; exact List.nodup_range' 0 N
    · intro h hh
      rw [hsub] at hh
      have hlt : h < N := by
        have := (List.mem_range'_1.mp hh).2
        omega
      rw [hopen, isClosed_eq_some, hchans]
      exact ⟨{ delivered := [], closed := false }, by simp [List.getElem?_replicate, hlt], rfl⟩
  exact ⟨hsub, hopen, hchans, hret, hwf⟩

/-! ## Frame facts that hold on every state -/

theorem chanSend_ps {T : Type} (w w1 : World T) (h : Nat) (v : T)
    (hs : chanSend w h v = Except.ok w1) : w1.ps = w.ps := by
  unfold chanSend at hs
  split at hs
  · cases hs
  · split at hs
    · cases hs
    · cases hs
      rfl

theorem sendAll_ps {T : Type} (v : T) (hs : List Nat) :
    ∀ (w w1 : World T), sendAll v hs w = Except.ok w1 → w1.ps = w.ps := by
  induction hs with
  | nil => intro w w1 h; cases h; rfl
  | cons a rest ih =>
    intro w w1 h
    simp only [sendAll] at h
    split at h
    · cases h
    · rename_i w2 h2
      rw [ih w2 w1 h, chanSend_ps w w2 a v h2]

theorem chanClose_frame {T : Type} (w w1 : World T) (h : Nat)
    (hs : chanClose w h = Except.ok w1) :
    w1.ps = w.ps ∧ ∀ i, deliveredTo w1 i = deliveredTo w i := by
  unfold chanClose at hs
  split at hs
  · cases hs
  · rename_i c hc
    split at hs
    · cases hs
    · cases hs
      refine ⟨rfl, ?_⟩
      intro i
      by_cases e : h = i
      · subst e
        simp [deliveredTo, List.getElem?_set_self (getElem?_lt_of_some hc), hc]
      · simp [deliveredTo, List.getElem?_set_ne e]

theorem closeAll_frame {T : Type} (hs : List Nat) :
    ∀ (w w1 : World T), closeAll hs w = Except.ok w1 →
      w1.ps = w.ps ∧ ∀ i, deliveredTo w1 i = deliveredTo w i := by
  induction hs with
  | nil => intro w w1 h; cases h; exact ⟨rfl, fun _ => rfl⟩
  | cons a rest ih =>
    intro w w1 h
    simp only [closeAll] at h
    split at h
    · cases h
    · rename_i w2 h2
      obtain ⟨p1, d1⟩ := chanClose_frame w w2 a h2
      obtain ⟨p2, d2⟩ := ih w2 w1 h
      exact ⟨by rw [p2, p1], fun i => by rw [d2 i, d1 i]⟩

/-- `Publish` never touches the registry or the flag. -/
theorem Publish_ps {T : Type} (w w1 : World T) (v : T) (h : Publish w v = Except.ok w1) :
    w1.ps = w.ps := by
  unfold Publish at h
  split at h
  · cases h; rfl
  · exact sendAll_ps v _ w w1 h

/-- `Close` keeps the registry and delivers nothing. -/
theorem Close_frame {T : Type} (w w1 : World T) (h : Close w = Except.ok w1) :
    w1.ps.Subscribers = w.ps.Subscribers ∧ ∀ i, deliveredTo w1 i = deliveredTo w i := by
  unfold Close at h
  split at h
  · cases h; exact ⟨rfl, fun _ => rfl⟩
  · split at h
    · cases h
    · rename_i w2 h2
      cases h
      obtain ⟨p1, d1⟩ := closeAll_frame _ w w2 h2
      exact ⟨by simp [p1], fun i => by simpa [deliveredTo] using d1 i⟩

/-- The registry only grows at its end, on every state. -/
theorem step_registry_grows {T : Type} (w w1 : World T) (op : Op T) (h : step w op = Except.ok w1) :
    w.ps.Subscribers <+: w1.ps.Subscribers := by
  cases op with
  | subscribe =>
    simp only [step] at h
    cases h
    by_cases hc : w.ps.closed = true
    · rw [Subscribe_closed w hc]
    · have ho : w.ps.closed = false := by simpa using hc
      rw [Subscribe_open w ho]
      exact List.prefix_append _ _
  | publish v =>
    rw [Publish_ps w w1 v h]
  | close =>
    rw [(Close_frame w w1 h).1]

theorem run_registry_grows {T : Type} (ops : List (Op T)) :
    ∀ (w w1 : World T), run w ops = Except.ok w1 →
      w.ps.Subscribers <+: w1.ps.Subscribers := by
  induction ops with
  | nil => intro w w1 h; cases h; exact List.prefix_refl _
  | cons op ops ih =>
    intro w w1 h
    simp only [run] at h
    split at h
    · cases h
    · rename_i w2 h2
      exact (step_registry_grows w w2 op h2).trans (ih w2 w1 h)

/-! ## Receivers that may not accept -/

theorem sendAllWith_all_ready {T : Type} (ready : Nat → Bool) (v : T) (hs : List Nat) :
    ∀ w : World T, (∀ h ∈ hs, ready h = true) →
      sendAllWith ready v hs w = Outcome.ofExcept (sendAll v hs w) := by
  induction hs with
  | nil => intro w _; rfl
  | cons a rest ih =>
    intro w hr
    have ha : ready a = true := hr a (List.mem_cons_self a rest)
    simp only [sendAllWith, sendAll, chanSendWith]
    cases hs : chanSend w a v with
    | error f => simp [Outcome.ofExcept]
    | ok w1 =>
      simp only [ha, if_true]
      exact ih w1 (fun h hh => hr h (List.mem_cons_of_mem a hh))

theorem sendAllWith_append {T : Type} (ready : Nat → Bool) (v : T) (xs ys : List Nat) :
    ∀ (w w1 : World T), sendAllWith ready v xs w = Outcome.returned w1 →
      sendAllWith ready v (xs ++ ys) w = sendAllWith ready v ys w1 := by
  induction xs with
  | nil => intro w w1 h; cases h; rfl
  | cons a rest ih =>
    intro w w1 h
    simp only [sendAllWith, List.cons_append] at h ⊢
    split at h
    · rename_i w2 _
      exact ih w2 w1 h
    · cases h
    · cases h

/-! ## Concurrent callers: the mutex discipline -/

theorem countP_set_add {α : Type} (p : α → Bool) :
    ∀ (l : List α) (i : Nat) (a b : α), l[i]? = some b →
      (l.set i a).countP p + (if p b then 1 else 0)
        = l.countP p + (if p a then 1 else 0) := by
  intro l
  induction l with
  | nil => intro i a b h; simp at h
  | cons x xs ih =>
    intro i a b h
    cases i with
    | zero =>
      simp only [List.getElem?_cons_zero, Option.some.injEq] at h
      subst h
      simp only [List.set_cons_zero, List.countP_cons]
      omega
    | succ n =>
      simp only [List.getElem?_cons_succ] at h
      have := ih n a b h
      simp only [List.set_cons_succ, List.countP_cons]
      omega

theorem countP_pos_of_getElem? {α : Type} (p : α → Bool) (l : List α) (i : Nat) (b : α)
    (h : l[i]? = some b) (hb : p b = true) : 1 ≤ l.countP p := by
  have hm : b ∈ l := List.mem_iff_getElem?.mpr ⟨i, h⟩
  exact List.countP_pos_iff.mpr ⟨b, hm, hb⟩

/-- How one step of a goroutine moves the mutex, in terms of whether the
goroutine is inside a call before and after the step. -/
theorem stepPc_mu {T : Type} (mu : RWMutex) (w : World T) (pc : Pc T)
    (hw : pc.holdsW = true → mu.writer = true)
    (hr : pc.holdsR = true → 1 ≤ mu.readers)
    (hwr : mu.writer = true → mu.readers = 0) :
    ((if (stepPc mu w pc).1.writer then 1 else 0) + (if pc.holdsW then 1 else 0)
      = (if mu.writer then 1 else 0) + (if (stepPc mu w pc).2.2.holdsW then 1 else 0)) ∧
    ((stepPc mu w pc).1.readers + (if pc.holdsR then 1 else 0)
      = mu.readers + (if (stepPc mu w pc).2.2.holdsR then 1 else 0)) ∧
    ((stepPc mu w pc).1.writer = true → (stepPc mu w pc).1.readers = 0) := by
  obtain ⟨wr, rd⟩ := mu
  simp only at hw hr hwr
  cases pc with
  | start op =>
    cases op with
    | subscribe =>
      cases wr <;> cases rd <;> simp [stepPc, RWMutex.canLock, Pc.holdsW, Pc.holdsR] at hwr ⊢
    | publish v =>
      cases wr <;> simp [stepPc, RWMutex.canRLock, Pc.holdsW, Pc.holdsR] at hwr ⊢
      exact hwr
    | close =>
      cases wr <;> cases rd <;> simp [stepPc, RWMutex.canLock, Pc.holdsW, Pc.holdsR] at hwr ⊢
  | subCheck =>
    cases hc : w.ps.closed <;> simp [stepPc, hc, Pc.holdsW, Pc.holdsR] <;> exact hwr
  | subMake => simp [stepPc, Pc.holdsW, Pc.holdsR]; exact hwr
  | subAppend r => simp [stepPc, Pc.holdsW, Pc.holdsR]; exact hwr
  | pubCheck v =>
    cases hc : w.ps.closed <;> simp [stepPc, hc, Pc.holdsW, Pc.holdsR] <;> exact hwr
  | pubLoop v rest =>
    cases rest with
    | nil => simp [stepPc, Pc.holdsW, Pc.holdsR]; exact hwr
    | cons ch rest =>
      cases hs : chanSend w ch v <;> simp [stepPc, hs, Pc.holdsW, Pc.holdsR] <;> exact hwr
  | closeCheck =>
    cases hc : w.ps.closed <;> simp [stepPc, hc, Pc.holdsW, Pc.holdsR] <;> exact hwr
  | closeLoop rest =>
    cases rest with
    | nil => simp [stepPc, Pc.holdsW, Pc.holdsR]; exact hwr
    | cons ch rest =>
      cases hs : chanClose w ch <;> simp [stepPc, hs, Pc.holdsW, Pc.holdsR] <;> exact hwr
  | closeSet => simp [stepPc, Pc.holdsW, Pc.holdsR]; exact hwr
  | unlockW ret =>
    have := hw rfl
    subst this
    simp [stepPc, Pc.holdsW, Pc.holdsR]
  | unlockR =>
    have h1 := hr rfl
    cases wr
    · simp [stepPc, Pc.holdsW, Pc.holdsR]; omega
    · have := hwr rfl; omega
  | unwindW f =>
    have := hw rfl
    subst this
    simp [stepPc, Pc.holdsW, Pc.holdsR]
  | unwindR f =>
    have h1 := hr rfl
    cases wr
    · simp [stepPc, Pc.holdsW, Pc.holdsR]; omega
    · have := hwr rfl; omega
  | done ret => simp [stepPc, Pc.holdsW, Pc.holdsR]; exact hwr
  | panicked f => simp [stepPc, Pc.holdsW, Pc.holdsR]; exact hwr

/-- A goroutine inside `Subscribe` or `Close` means the mutex is write-held; a
goroutine inside `Publish` means it is read-held. -/
theorem LockInv_holds {T : Type} (c : Config T) (h : LockInv c) (i : Nat) (pc : Pc T)
    (hpc : c.threads[i]? = some pc) :
    (pc.holdsW = true → c.mu.writer = true) ∧ (pc.holdsR = true → 1 ≤ c.mu.readers) := by
  obtain ⟨hW, hR, _⟩ := h
  constructor
  · intro hp
    have := countP_pos_of_getElem? Pc.holdsW c.threads i pc hpc hp
    rw [hW] at this
    by_cases hwr : c.mu.writer = true
    · exact hwr
    · simp [hwr] at this
  · intro hp
    have := countP_pos_of_getElem? Pc.holdsR c.threads i pc hpc hp
    rw [hR] at this
    exact this

/-- Every step of every goroutine keeps the mutex state in agreement with the
goroutines that are inside a call. -/
theorem LockInv_step {T : Type} (c : Config T) (i : Nat) (h : LockInv c) :
    LockInv (stepThread c i) := by
  unfold stepThread
  cases hpc : c.threads[i]? with
  | none => exact h
  | some pc =>
    obtain ⟨hw, hr⟩ := LockInv_holds c h i pc hpc
    obtain ⟨hW, hR, hWR⟩ := h
    have eW := countP_set_add Pc.holdsW c.threads i (stepPc c.mu c.world pc).2.2 pc hpc
    have eR := countP_set_add Pc.holdsR c.threads i (stepPc c.mu c.world pc).2.2 pc hpc
    obtain ⟨mW, mR, mWR⟩ := stepPc_mu c.mu c.world pc hw hr hWR
    rw [hW] at eW
    rw [hR] at eR
    refine ⟨?_, ?_, mWR⟩
    · simp only
      omega
    · simp only
      omega

theorem LockInv_init {T : Type} (w : World T) (ops : List (Op T)) :
    LockInv (initConfig w ops) := by
  refine ⟨?_, ?_, fun h => rfl⟩
  · simp only [initConfig]
    rw [if_neg (by simp)]
    rw [List.countP_eq_zero]
    intro a ha
    obtain ⟨op, _, rfl⟩ := List.mem_map.mp ha
    simp [Pc.holdsW]
  · simp only [initConfig]
    rw [List.countP_eq_zero]
    intro a ha
    obtain ⟨op, _, rfl⟩ := List.mem_map.mp ha
    simp [Pc.holdsR]

theorem LockInv_run {T : Type} (sched : List Nat) :
    ∀ c : Config T, LockInv c → LockInv (runSched c sched) := by
  induction sched with
  | nil => intro c h; exact h
  | cons i sched ih => intro c h; exact ih _ (LockInv_step c i h)

theorem set_getElem?_same {α : Type} :
    ∀ (l : List α) (i : Nat) (a : α), l[i]? = some a → l.set i a = l := by
  intro l
  induction l with
  | nil => intro i a h; simp at h
  | cons x xs ih =>
    intro i a h
    cases i with
    | zero =>
      simp only [List.getElem?_cons_zero, Option.some.injEq] at h
      subst h
      rfl
    | succ n =>
      simp only [List.getElem?_cons_succ] at h
      simp [List.set_cons_succ, ih n a h]

theorem LockInv_reached {T : Type} (w : World T) (ops : List (Op T)) (sched : List Nat) :
    LockInv (reached w ops sched) :=
  LockInv_run sched _ (LockInv_init w ops)

/-- While a goroutine is inside `Subscribe` or `Close`, no other goroutine is
inside any call. -/
theorem writer_excludes {T : Type} (c : Config T) (h : LockInv c) (i j : Nat) (pi pj : Pc T)
    (hij : i ≠ j) (hi : c.threads[i]? = some pi) (hj : c.threads[j]? = some pj)
    (hjW : pj.holdsW = true) : pi.holdsW = false ∧ pi.holdsR = false := by
  have hwr := (LockInv_holds c h j pj hj).1 hjW
  obtain ⟨hW, hR, hWR⟩ := h
  constructor
  · have e := countP_set_add Pc.holdsW c.threads j (Pc.done none) pj hj
    rw [hW, hwr, hjW] at e
    simp only [Pc.holdsW, if_true] at e
    have z : (c.threads.set j (Pc.done none)).countP Pc.holdsW = 0 := by
      simp only [Bool.false_eq_true, if_false] at e
      omega
    rw [List.countP_eq_zero] at z
    have hm : pi ∈ c.threads.set j (Pc.done none) :=
      List.mem_iff_getElem?.mpr ⟨i, by rw [List.getElem?_set_ne (Ne.symm hij)]; exact hi⟩
    simpa using z pi hm
  · have z : c.threads.countP Pc.holdsR = 0 := by rw [hR, hWR hwr]
    rw [List.countP_eq_zero] at z
    simpa using z pi (List.mem_iff_getElem?.mpr ⟨i, hi⟩)

/-- While a goroutine is inside `Publish`, no goroutine is inside `Subscribe`
or `Close`. -/
theorem reader_excludes {T : Type} (c : Config T) (h : LockInv c) (i j : Nat) (pi pj : Pc T)
    (hi : c.threads[i]? = some pi) (hj : c.threads[j]? = some pj)
    (hjR : pj.holdsR = true) : pi.holdsW = false := by
  have hrd := (LockInv_holds c h j pj hj).2 hjR
  by_cases hp : pi.holdsW = true
  · have hwr := (LockInv_holds c h i pi hi).1 hp
    have := h.2.2 hwr
    omega
  · simpa using hp

/-- A goroutine that is not inside a call does not touch the broadcaster. -/
theorem stepPc_outside {T : Type} (mu : RWMutex) (w : World T) (pc : Pc T)
    (hW : pc.holdsW = false) (hR : pc.holdsR = false) : (stepPc mu w pc).2.1 = w := by
  cases pc with
  | start op =>
    cases op with
    | subscribe => simp only [stepPc]; split <;> rfl
    | publish v => simp only [stepPc]; split <;> rfl
    | close => simp only [stepPc]; split <;> rfl
  | done ret => rfl
  | panicked f => rfl
  | subCheck => simp [Pc.holdsW] at hW
  | subMake => simp [Pc.holdsW] at hW
  | subAppend r => simp [Pc.holdsW] at hW
  | closeCheck => simp [Pc.holdsW] at hW
  | closeLoop rest => simp [Pc.holdsW] at hW
  | closeSet => simp [Pc.holdsW] at hW
  | unlockW ret => simp [Pc.holdsW] at hW
  | unwindW f => simp [Pc.holdsW] at hW
  | pubCheck v => simp [Pc.holdsR] at hR
  | pubLoop v rest => simp [Pc.holdsR] at hR
  | unlockR => simp [Pc.holdsR] at hR
  | unwindR f => simp [Pc.holdsR] at hR

/-- While the mutex is write-held, a goroutine that is not inside a call cannot
move at all. -/
theorem stepPc_blocked {T : Type} (mu : RWMutex) (w : World T) (pc : Pc T)
    (hmu : mu.writer = true) (hW : pc.holdsW = false) (hR : pc.holdsR = false) :
    stepPc mu w pc = (mu, w, pc) := by
  cases pc with
  | start op =>
    cases op <;> simp [stepPc, RWMutex.canLock, RWMutex.canRLock, hmu]
  | done ret => rfl
  | panicked f => rfl
  | subCheck => simp [Pc.holdsW] at hW
  | subMake => simp [Pc.holdsW] at hW
  | subAppend r => simp [Pc.holdsW] at hW
  | closeCheck => simp [Pc.holdsW] at hW
  | closeLoop rest => simp [Pc.holdsW] at hW
  | closeSet => simp [Pc.holdsW] at hW
  | unlockW ret => simp [Pc.holdsW] at hW
  | unwindW f => simp [Pc.holdsW] at hW
  | pubCheck v => simp [Pc.holdsR] at hR
  | pubLoop v rest => simp [Pc.holdsR] at hR
  | unlockR => simp [Pc.holdsR] at hR
  | unwindR f => simp [Pc.holdsR] at hR

theorem chanSend_marks {T : Type} (w w1 : World T) (h : Nat) (v : T)
    (hs : chanSend w h v = Except.ok w1) :
    closesOf w1.trace = closesOf w.trace ∧ ∀ i, isClosed w1 i = isClosed w i := by
  unfold chanSend at hs
  split at hs
  · cases hs
  · rename_i c hc
    split at hs
    · cases hs
    · cases hs
      refine ⟨by simp [closesOf_append, closesOf], ?_⟩
      intro i
      by_cases e : h = i
      · subst e
        simp [isClosed, List.getElem?_set_self (getElem?_lt_of_some hc), hc]
      · simp [isClosed, List.getElem?_set_ne e]

/-- A step of a goroutine that is not inside `Subscribe` or `Close` changes
neither the registry nor the flag and closes no endpoint. -/
theorem stepPc_no_writer {T : Type} (mu : RWMutex) (w : World T) (pc : Pc T)
    (hW : pc.holdsW = false) :
    (stepPc mu w pc).2.1.ps = w.ps ∧
    closesOf (stepPc mu w pc).2.1.trace = closesOf w.trace ∧
    ∀ h, isClosed (stepPc mu w pc).2.1 h = isClosed w h := by
  by_cases hR : pc.holdsR = true
  · cases pc with
    | pubCheck v => simp only [stepPc]; split <;> exact ⟨rfl, rfl, fun _ => rfl⟩
    | pubLoop v rest =>
      cases rest with
      | nil => exact ⟨rfl, rfl, fun _ => rfl⟩
      | cons ch rest =>
        cases hs : chanSend w ch v with
        | error f =>
          have e : stepPc mu w (Pc.pubLoop v (ch :: rest)) = (mu, w, Pc.unwindR f) := by
            simp [stepPc, hs]
          rw [e]
          exact ⟨rfl, rfl, fun _ => rfl⟩
        | ok w1 =>
          have e : stepPc mu w (Pc.pubLoop v (ch :: rest)) = (mu, w1, Pc.pubLoop v rest) := by
            simp [stepPc, hs]
          rw [e]
          exact ⟨chanSend_ps w w1 ch v hs, (chanSend_marks w w1 ch v hs).1,
            (chanSend_marks w w1 ch v hs).2⟩
    | unlockR => exact ⟨rfl, rfl, fun _ => rfl⟩
    | unwindR f => exact ⟨rfl, rfl, fun _ => rfl⟩
    | start op => simp [Pc.holdsR] at hR
    | done ret => simp [Pc.holdsR] at hR
    | panicked f => simp [Pc.holdsR] at hR
    | subCheck => simp [Pc.holdsR] at hR
    | subMake => simp [Pc.holdsR] at hR
    | subAppend r => simp [Pc.holdsR] at hR
    | closeCheck => simp [Pc.holdsR] at hR
    | closeLoop rest => simp [Pc.holdsR] at hR
    | closeSet => simp [Pc.holdsR] at hR
    | unlockW ret => simp [Pc.holdsR] at hR
    | unwindW f => simp [Pc.holdsR] at hR
  · have hR2 : pc.holdsR = false := by simpa using hR
    rw [stepPc_outside mu w pc hW hR2]
    exact ⟨rfl, rfl, fun _ => rfl⟩

/-! ## A goroutine running alone performs the sequential operation -/

theorem stepThread_single {T : Type} (mu : RWMutex) (w : World T) (pc : Pc T) :
    stepThread { mu := mu, world := w, threads := [pc] } 0 =
      { mu := (stepPc mu w pc).1, world := (stepPc mu w pc).2.1,
        threads := [(stepPc mu w pc).2.2] } := rfl

theorem solo_step {T : Type} (c c2 : Config T)
    (h : ∃ n, runSched (stepThread c 0) (List.replicate n 0) = c2) :
    ∃ n, runSched c (List.replicate n 0) = c2 := by
  obtain ⟨n, hn⟩ := h
  exact ⟨n + 1, by simpa [List.replicate_succ, runSched] using hn⟩

theorem runSched_append {T : Type} (a b : List Nat) :
    ∀ c : Config T, runSched c (a ++ b) = runSched (runSched c a) b := by
  induction a with
  | nil => intro c; rfl
  | cons i a ih => intro c; simp only [List.cons_append, runSched]; exact ih _

theorem solo_trans {T : Type} (c c1 c2 : Config T)
    (h1 : ∃ n, runSched c (List.replicate n 0) = c1)
    (h2 : ∃ n, runSched c1 (List.replicate n 0) = c2) :
    ∃ n, runSched c (List.replicate n 0) = c2 := by
  obtain ⟨n, hn⟩ := h1
  obtain ⟨m, hm⟩ := h2
  refine ⟨n + m, ?_⟩
  rw [List.replicate_add, runSched_append, hn, hm]

theorem pubLoop_solo_ok {T : Type} (mu : RWMutex) (v : T) (rest : List Nat) :
    ∀ (w w1 : World T), sendAll v rest w = Except.ok w1 →
      ∃ n, runSched { mu := mu, world := w, threads := [Pc.pubLoop v rest] }
          (List.replicate n 0)
        = { mu := mu, world := w1, threads := [Pc.unlockR] } := by
  induction rest with
  | nil =>
    intro w w1 h
    cases h
    exact ⟨1, rfl⟩
  | cons ch rest ih =>
    intro w w1 h
    simp only [sendAll] at h
    cases hs : chanSend w ch v with
    | error f => rw [hs] at h; cases h
    | ok w2 =>
      rw [hs] at h
      apply solo_step
      rw [stepThread_single]
      have e : stepPc mu w (Pc.pubLoop v (ch :: rest)) = (mu, w2, Pc.pubLoop v rest) := by
        simp [stepPc, hs]
      rw [e]
      exact ih w2 w1 h

theorem pubLoop_solo_error {T : Type} (mu : RWMutex) (v : T) (rest : List Nat) :
    ∀ (w : World T) (f : Fault), sendAll v rest w = Except.error f →
      ∃ n w1, runSched { mu := mu, world := w, threads := [Pc.pubLoop v rest] }
          (List.replicate n 0)
        = { mu := mu, world := w1, threads := [Pc.unwindR f] } := by
  induction rest with
  | nil => intro w f h; cases h
  | cons ch rest ih =>
    intro w f h
    simp only [sendAll] at h
    cases hs : chanSend w ch v with
    | error g =>
      rw [hs] at h
      cases h
      refine ⟨1, w, ?_⟩
      simp only [List.replicate, runSched, stepThread_single]
      have e : stepPc mu w (Pc.pubLoop v (ch :: rest)) = (mu, w, Pc.unwindR f) := by
        simp [stepPc, hs]
      rw [e]
    | ok w2 =>
      rw [hs] at h
      obtain ⟨n, w1, hn⟩ := ih w2 f h
      refine ⟨n + 1, w1, ?_⟩
      simp only [List.replicate_succ, runSched, stepThread_single]
      have e : stepPc mu w (Pc.pubLoop v (ch :: rest)) = (mu, w2, Pc.pubLoop v rest) := by
        simp [stepPc, hs]
      rw [e]
      exact hn

theorem closeLoop_solo_ok {T : Type} (mu : RWMutex) (rest : List Nat) :
    ∀ (w w1 : World T), closeAll rest w = Except.ok w1 →
      ∃ n, runSched { mu := mu, world := w, threads := [Pc.closeLoop rest] }
          (List.replicate n 0)
        = { mu := mu, world := w1, threads := [Pc.closeSet] } := by
  induction rest with
  | nil =>
    intro w w1 h
    cases h
    exact ⟨1, rfl⟩
  | cons ch rest ih =>
    intro w w1 h
    simp only [closeAll] at h
    cases hs : chanClose w ch with
    | error f => rw [hs] at h; cases h
    | ok w2 =>
      rw [hs] at h
      apply solo_step
      rw [stepThread_single]
      have e : stepPc mu w (Pc.closeLoop (ch :: rest)) = (mu, w2, Pc.closeLoop rest) := by
        simp [stepPc, hs]
      rw [e]
      exact ih w2 w1 h

theorem closeLoop_solo_error {T : Type} (mu : RWMutex) (rest : List Nat) :
    ∀ (w : World T) (f : Fault), closeAll rest w = Except.error f →
      ∃ n w1, runSched { mu := mu, world := w, threads := [Pc.closeLoop rest] }
          (List.replicate n 0)
        = { mu := mu, world := w1, threads := [Pc.unwindW f] } := by
  induction rest with
  | nil => intro w f h; cases h
  | cons ch rest ih =>
    intro w f h
    simp only [closeAll] at h
    cases hs : chanClose w ch with
    | error g =>
      rw [hs] at h
      cases h
      refine ⟨1, w, ?_⟩
      simp only [List.replicate, runSched, stepThread_single]
      have e : stepPc mu w (Pc.closeLoop (ch :: rest)) = (mu, w, Pc.unwindW f) := by
        simp [stepPc, hs]
      rw [e]
    | ok w2 =>
      rw [hs] at h
      obtain ⟨n, w1, hn⟩ := ih w2 f h
      refine ⟨n + 1, w1, ?_⟩
      simp only [List.replicate_succ, runSched, stepThread_single]
      have e : stepPc mu w (Pc.closeLoop (ch :: rest)) = (mu, w2, Pc.closeLoop rest) := by
        simp [stepPc, hs]
      rw [e]
      exact hn

theorem replicate_split (n a b : Nat) :
    List.replicate (n + a + b) 0
      = List.replicate a 0 ++ (List.replicate n 0 ++ List.replicate b 0) := by
  have e : n + a + b = a + (n + b) := by omega
  rw [e, List.replicate_add, List.replicate_add]

/-- A goroutine that runs alone, from a free mutex, goes through the whole call
and ends with the mutex free again and the state the sequential operation
gives (or with the same panic). -/
theorem solo_refines {T : Type} (w : World T) (op : Op T) :
    (∀ w1, step w op = Except.ok w1 →
      ∃ n, reached w [op] (List.replicate n 0) =
        { mu := { writer := false, readers := 0 }, world := w1,
          threads := [Pc.done (match op with
            | Op.subscribe => (Subscribe w).2
            | _ => none)] }) ∧
    (∀ f, step w op = Except.error f →
      ∃ n w1, reached w [op] (List.replicate n 0) =
        { mu := { writer := false, readers := 0 }, world := w1,
          threads := [Pc.panicked f] }) := by
  cases op with
  | subscribe =>
    refine ⟨?_, fun f h => by simp [step] at h⟩
    intro w1 h
    simp only [step, Except.ok.injEq] at h
    subst h
    by_cases hc : w.ps.closed = true
    · exact ⟨3, by
        simp [reached, initConfig, runSched, stepThread_single, stepPc, RWMutex.canLock,
          Subscribe_closed w hc, hc]⟩
    · have ho : w.ps.closed = false := by simpa using hc
      exact ⟨5, by
        simp [reached, initConfig, runSched, stepThread_single, stepPc, RWMutex.canLock,
          Subscribe_open w ho, ho, chanMake]⟩
  | publish v =>
    by_cases hc : w.ps.closed = true
    · refine ⟨?_, fun f h => by simp [step, Publish_closed w v hc] at h⟩
      intro w1 h
      simp only [step, Publish_closed w v hc, Except.ok.injEq] at h
      subst h
      exact ⟨3, by
        simp [reached, initConfig, runSched, stepThread_single, stepPc, RWMutex.canRLock, hc]⟩
    · have ho : w.ps.closed = false := by simpa using hc
      have e1 : runSched (initConfig w [Op.publish v]) (List.replicate 2 0) =
          { mu := { writer := false, readers := 1 }, world := w,
            threads := [Pc.pubLoop v w.ps.Subscribers] } := by
        simp [initConfig, runSched, stepThread_single, stepPc, RWMutex.canRLock, ho]
      constructor
      · intro w1 h
        have h2 : sendAll v w.ps.Subscribers w = Except.ok w1 := by
          simpa [step, Publish, ho] using h
        obtain ⟨n, hn⟩ := pubLoop_solo_ok { writer := false, readers := 1 } v _ w w1 h2
        refine ⟨n + 2 + 1, ?_⟩
        rw [reached, replicate_split, runSched_append, runSched_append, e1, hn]
        simp [List.replicate, runSched, stepThread_single, stepPc]
      · intro f h
        have h2 : sendAll v w.ps.Subscribers w = Except.error f := by
          simpa [step, Publish, ho] using h
        obtain ⟨n, w1, hn⟩ := pubLoop_solo_error { writer := false, readers := 1 } v _ w f h2
        refine ⟨n + 2 + 1, w1, ?_⟩
        rw [reached, replicate_split, runSched_append, runSched_append, e1, hn]
        simp [List.replicate, runSched, stepThread_single, stepPc]
  | close =>
    by_cases hc : w.ps.closed = true
    · refine ⟨?_, fun f h => by simp [step, Close_closed w hc] at h⟩
      intro w1 h
      simp only [step, Close_closed w hc, Except.ok.injEq] at h
      subst h
      exact ⟨3, by
        simp [reached, initConfig, runSched, stepThread_single, stepPc, RWMutex.canLock, hc]⟩
    · have ho : w.ps.closed = false := by simpa using hc
      have e1 : runSched (initConfig w [Op.close]) (List.replicate 2 0) =
          { mu := { writer := true, readers := 0 }, world := w,
            threads := [Pc.closeLoop w.ps.Subscribers] } := by
        simp [initConfig, runSched, stepThread_single, stepPc, RWMutex.canLock, ho]
      constructor
      · intro w1 h
        simp only [step, Close, ho] at h
        cases h2 : closeAll w.ps.Subscribers w with
        | error f => simp [h2] at h
        | ok w2 =>
          simp only [h2, Bool.false_eq_true, if_false, Except.ok.injEq] at h
          subst h
          obtain ⟨n, hn⟩ := closeLoop_solo_ok { writer := true, readers := 0 } _ w w2 h2
          refine ⟨n + 2 + 2, ?_⟩
          rw [reached, replicate_split, runSched_append, runSched_append, e1, hn]
          simp [List.replicate, runSched, stepThread_single, stepPc]
      · intro f h
        simp only [step, Close, ho] at h
        cases h2 : closeAll w.ps.Subscribers w with
        | ok w2 => simp [h2] at h
        | error g =>
          simp only [h2, Bool.false_eq_true, if_false, Except.error.injEq] at h
          subst h
          obtain ⟨n, w1, hn⟩ := closeLoop_solo_error { writer := true, readers := 0 } _ w g h2
          refine ⟨n + 2 + 1, w1, ?_⟩
          rw [reached, replicate_split, runSched_append, runSched_append, e1, hn]
          simp [List.replicate, runSched, stepThread_single, stepPc]

/-! ## The claims -/

/-- C1: for every sequence of calls on a broadcaster made by `NewPubSub`, the
calls before any `Subscribe` call run without panic, and whenever that
`Subscribe` returns an endpoint, the whole sequence runs without panic and the
values delivered to that endpoint are exactly the values of the `Publish`
calls after that `Subscribe` and before the first `Close`, in publish order. -/
theorem delivered_eq_published_after_subscribe {T : Type} (pre post : List (Op T)) :
    ∃ w1, run (NewPubSub : World T) pre = Except.ok w1 ∧
      ∀ h, (Subscribe w1).2 = some h →
        ∃ w3, run (NewPubSub : World T) (pre ++ Op.subscribe :: post) = Except.ok w3 ∧
          deliveredTo w3 h = some (publishedBeforeClose post) := by
  obtain ⟨w1, h1, hwf1⟩ := run_wf pre (NewPubSub : World T) WellFormed_NewPubSub
  refine ⟨w1, h1, ?_⟩
  intro h hs
  obtain ⟨_, _, hmem, hopen, hd⟩ := Subscribe_some w1 h hs
  obtain ⟨w3, hrun, _, _, hd3⟩ :=
    run_delivers post (Subscribe w1).1 h [] (WellFormed_Subscribe w1 hwf1) hopen hmem hd
  refine ⟨w3, ?_, by simpa using hd3⟩
  rw [run_append pre (Op.subscribe :: post) NewPubSub w1 h1]
  simpa [run, step] using hrun

/-- Witness for C1: one value published too early, then a subscriber that sees
"one" and "two" but neither "zero" nor the post-close "three". -/
theorem delivered_eq_published_after_subscribe_witness :
    ∃ w3, run (NewPubSub : World String)
        ([Op.publish "zero"] ++ Op.subscribe ::
          [Op.publish "one", Op.subscribe, Op.publish "two", Op.close, Op.publish "three"])
        = Except.ok w3 ∧
      deliveredTo w3 0 = some ["one", "two"] := by
  obtain ⟨w1, h1, h2⟩ := delivered_eq_published_after_subscribe
    [Op.publish "zero"]
    [Op.publish "one", Op.subscribe, Op.publish "two", Op.close, Op.publish "three"]
  have e : w1 = (NewPubSub : World String) := by
    have : run (NewPubSub : World String) [Op.publish "zero"] = Except.ok NewPubSub := rfl
    rw [this] at h1
    exact (Except.ok.inj h1).symm
  subst e
  exact h2 0 rfl

/-- C2 (fan-out completeness): after `NewPubSub`, `N` calls of `Subscribe`
return `N` distinct endpoints; then `Publish v1 .. Publish vk` and `Close` run
without panic, and each of the `N` endpoints has been delivered exactly
`v1 .. vk` in order and is closed. -/
theorem fan_out_complete {T : Type} (N : Nat) (vs : List T) :
    (subscribeN N (NewPubSub : World T)).2.length = N ∧
    (subscribeN N (NewPubSub : World T)).2.Nodup ∧
    ∃ w, run (subscribeN N (NewPubSub : World T)).1 (vs.map Op.publish ++ [Op.close])
        = Except.ok w ∧
      w.ps.closed = true ∧
      ∀ r ∈ (subscribeN N (NewPubSub : World T)).2,
        ∃ h, r = some h ∧ w.chans[h]? = some { delivered := vs, closed := true } := by
  obtain ⟨hsub, hopen, hchans, hret, hwf⟩ := subscribeN_NewPubSub (T := T) N
  obtain ⟨w, hrun, hwfw⟩ := run_wf (vs.map Op.publish ++ [Op.close]) _ hwf
  have hclosed : w.ps.closed = true := by
    obtain ⟨w2, h2, _⟩ := run_wf (vs.map Op.publish) _ hwf
    rw [run_append _ [Op.close] _ w2 h2] at hrun
    simp only [run, step] at hrun
    split at hrun
    · cases hrun
    · rename_i w3 h3
      have e : w3 = w := Except.ok.inj hrun
      rw [← e]
      exact Close_sets_closed w2 w3 h3
  refine ⟨by rw [hret]; simp, ?_, w, hrun, hclosed, ?_⟩
  · rw [hret]
    exact (List.nodup_range' 0 N).map (Option.some_injective _)
  · intro r hr
    rw [hret] at hr
    obtain ⟨h, hh, rfl⟩ := List.mem_map.mp hr
    refine ⟨h, rfl, ?_⟩
    have hlt : h < N := by
      have := (List.mem_range'_1.mp hh).2
      omega
    obtain ⟨w9, hrun9, _, hmem9, hd9⟩ :=
      run_delivers (vs.map Op.publish ++ [Op.close]) _ h [] hwf hopen
        (by rw [hsub]; exact hh)
        (by rw [deliveredTo_eq_some, hchans]
            exact ⟨{ delivered := [], closed := false },
              by simp [List.getElem?_replicate, hlt], rfl⟩)
    rw [hrun] at hrun9
    cases hrun9
    rw [publishedBeforeClose_publishes] at hd9
    obtain ⟨c, hc, hcd⟩ := (deliveredTo_eq_some w h _).mp hd9
    obtain ⟨c2, hc2, hcl⟩ := (isClosed_eq_some w h _).mp (hwfw.2 h hmem9)
    rw [hc] at hc2
    cases hc2
    rw [hc]
    cases c
    simp only [List.nil_append] at hcd
    simp only at hcl
    rw [hclosed] at hcl
    simp [hcd, hcl]

/-- Witness for C2: the scenario of `main`, two subscribers and the values
"one", "two", "three". -/
theorem fan_out_complete_witness :
    (subscribeN 2 (NewPubSub : World String)).2 = [some 0, some 1] ∧
    ∃ w, mainRun = Except.ok w ∧ w.ps.closed = true ∧
      w.chans[0]? = some { delivered := ["one", "two", "three"], closed := true } ∧
      w.chans[1]? = some { delivered := ["one", "two", "three"], closed := true } := by
  obtain ⟨_, _, w, hrun, hcl, hall⟩ := fan_out_complete 2 ["one", "two", "three"]
  have hret : (subscribeN 2 (NewPubSub : World String)).2 = [some 0, some 1] := rfl
  refine ⟨hret, w, hrun, hcl, ?_, ?_⟩
  · obtain ⟨h, e, hc⟩ := hall (some 0) (by rw [hret]; simp)
    cases e
    exact hc
  · obtain ⟨h, e, hc⟩ := hall (some 1) (by rw [hret]; simp)
    cases e
    exact hc

/-- C3: `Subscribe` returns the absent result exactly when the broadcaster is
closed, and then leaves the whole state unchanged; a `Subscribe` on any state
returned by `Close` yields absence and changes nothing; in particular, for any
number `N` of prior subscribers, `Close` succeeds and a `Subscribe` after it
yields absence and changes nothing. -/
theorem Subscribe_absent_iff_closed {T : Type} (w : World T) (N : Nat) :
    ((Subscribe w).2 = none ↔ w.ps.closed = true) ∧
    ((Subscribe w).2 = none → (Subscribe w).1 = w) ∧
    (∀ w1, Close w = Except.ok w1 → Subscribe w1 = (w1, none)) ∧
    ∃ w1, Close (subscribeN N (NewPubSub : World T)).1 = Except.ok w1 ∧
      Subscribe w1 = (w1, none) := by
  refine ⟨?_, ?_, fun w1 h1 => Subscribe_closed w1 (Close_sets_closed w w1 h1), ?_⟩
  · by_cases hc : w.ps.closed = true
    · simp [Subscribe_closed w hc, hc]
    · have ho : w.ps.closed = false := by simpa using hc
      simp [Subscribe_open w ho, ho]
  · intro hn
    by_cases hc : w.ps.closed = true
    · rw [Subscribe_closed w hc]
    · have ho : w.ps.closed = false := by simpa using hc
      rw [Subscribe_open w ho] at hn
      cases hn
  · obtain ⟨_, hopen, _, _, hwf⟩ := subscribeN_NewPubSub (T := T) N
    obtain ⟨w1, hcl, hps, _⟩ := Close_open _ hwf hopen
    exact ⟨w1, hcl, Subscribe_closed w1 (by rw [hps])⟩

/-- C4 (post-close publish is a no-op): on every state with `closed = true`,
`Publish v` returns normally, performs no channel operation at all (so no send
that could block), and leaves the registry, the closed flag and every
endpoint unchanged. -/
theorem Publish_after_close_noop {T : Type} (w : World T) (v : T)
    (hc : w.ps.closed = true) :
    ∃ w1, Publish w v = Except.ok w1 ∧ w1.trace = w.trace ∧
      sendsOf w1.trace = sendsOf w.trace ∧ w1.ps = w.ps ∧ w1.chans = w.chans ∧
      ∀ h, deliveredTo w1 h = deliveredTo w h :=
  ⟨w, Publish_closed w v hc, rfl, rfl, rfl, rfl, fun _ => rfl⟩

/-- Witness for C4: two subscribers got 5 and the broadcaster was closed; a
later `Publish 9` changes nothing. -/
theorem Publish_after_close_noop_witness :
    run (NewPubSub : World Nat) [Op.subscribe, Op.subscribe, Op.publish 5, Op.close]
      = Except.ok twoSubsClosed ∧
    twoSubsClosed.ps.closed = true ∧
    ∃ w1, Publish twoSubsClosed 9 = Except.ok w1 ∧
      w1.chans = [⟨[5], true⟩, ⟨[5], true⟩] ∧ sendsOf w1.trace = [(0, 5), (1, 5)] := by
  obtain ⟨w1, h1, _, h3, _, h5, _⟩ := Publish_after_close_noop twoSubsClosed 9 rfl
  exact ⟨rfl, rfl, w1, h1, h5, h3⟩

/-- C5 (close terminates all subscribers): on every open well-formed state,
`Close` returns normally with the flag set and every registered endpoint
closed; and after any further sequence of calls, which runs without panic,
each of those endpoints is still closed and has been delivered exactly what it
had just before `Close`. -/
theorem Close_terminates_subscribers {T : Type} (w : World T) (hwf : WellFormed w)
    (ho : w.ps.closed = false) :
    ∃ w1, Close w = Except.ok w1 ∧ w1.ps.closed = true ∧
      (∀ h ∈ w.ps.Subscribers, isClosed w1 h = some true) ∧
      ∀ ops : List (Op T), ∃ w2, run w1 ops = Except.ok w2 ∧
        ∀ h ∈ w.ps.Subscribers,
          isClosed w2 h = some true ∧ deliveredTo w2 h = deliveredTo w h := by
  obtain ⟨w1, hcl, hps, _, _, hin, _⟩ := Close_open w hwf ho
  have hc1 : w1.ps.closed = true := by rw [hps]
  have key : ∀ h ∈ w.ps.Subscribers,
      isClosed w1 h = some true ∧ deliveredTo w1 h = deliveredTo w h := by
    intro h hh
    obtain ⟨c, hc, _⟩ := open_of_wf w hwf ho h hh
    have h1 := hin h hh c hc
    simp [isClosed, deliveredTo, h1, hc]
  refine ⟨w1, hcl, hc1, fun h hh => (key h hh).1, ?_⟩
  intro ops
  exact ⟨w1, run_closed w1 ops hc1, key⟩

/-- Witness for C5: two subscribers that each got 5; after `Close` and a
further `Publish`, `Subscribe`, `Close` both are closed and still hold `[5]`. -/
theorem Close_terminates_subscribers_witness :
    run (NewPubSub : World Nat) [Op.subscribe, Op.subscribe, Op.publish 5]
      = Except.ok twoSubs ∧
    WellFormed twoSubs ∧ twoSubs.ps.closed = false ∧
    ∃ w1, Close twoSubs = Except.ok w1 ∧
      ∃ w2, run w1 [Op.publish 7, Op.subscribe, Op.close] = Except.ok w2 ∧
        isClosed w2 0 = some true ∧ deliveredTo w2 0 = some [5] ∧
        isClosed w2 1 = some true ∧ deliveredTo w2 1 = some [5] := by
  obtain ⟨w1, h1, _, _, h4⟩ := Close_terminates_subscribers twoSubs (by decide) rfl
  obtain ⟨w2, h2, h3⟩ := h4 [Op.publish 7, Op.subscribe, Op.close]
  exact ⟨rfl, by decide, rfl, w1, h1, w2, h2, (h3 0 (by decide)).1, (h3 0 (by decide)).2,
    (h3 1 (by decide)).1, (h3 1 (by decide)).2⟩

/-- C6 (`Close` is idempotent): on every state, `Close; Close` gives the same
result as a single `Close`; a `Close` applied to a state returned by `Close`
returns that very state, so it performs no channel operation and closes no
endpoint again; and on a well-formed state neither call panics. -/
theorem Close_idempotent {T : Type} (w : World T) :
    run w [Op.close, Op.close] = run w [Op.close] ∧
    (∀ w1, Close w = Except.ok w1 →
      Close w1 = Except.ok w1 ∧ run w [Op.close, Op.close] = Except.ok w1) ∧
    (WellFormed w → ∃ w1, run w [Op.close, Op.close] = Except.ok w1 ∧
      closesOf w1.trace =
        closesOf w.trace ++ (if w.ps.closed then [] else w.ps.Subscribers)) := by
  have h2 : ∀ w1, Close w = Except.ok w1 →
      Close w1 = Except.ok w1 ∧ run w [Op.close, Op.close] = Except.ok w1 := by
    intro w1 h1
    have hc := Close_closed w1 (Close_sets_closed w w1 h1)
    exact ⟨hc, by simp [run, step, h1, hc]⟩
  refine ⟨?_, h2, ?_⟩
  · cases hcl : Close w with
    | error e => simp [run, step, hcl]
    | ok w1 =>
      rw [(h2 w1 hcl).2]
      simp [run, step, hcl]
  · intro hwf
    by_cases hc : w.ps.closed = true
    · exact ⟨w, (h2 w (Close_closed w hc)).2, by simp [hc]⟩
    · have ho : w.ps.closed = false := by simpa using hc
      obtain ⟨w1, hcl, _, htr, _⟩ := Close_open w hwf ho
      exact ⟨w1, (h2 w1 hcl).2, by rw [htr, closesOf_append, closesOf_closes]; simp [ho]⟩

/-- Witness for C6: two open subscribers; closing twice gives the state of a
single `Close` and logs each close once. -/
theorem Close_idempotent_witness :
    WellFormed twoSubs ∧ Close twoSubs = Except.ok twoSubsClosed ∧
    Close twoSubsClosed = Except.ok twoSubsClosed ∧
    run twoSubs [Op.close, Op.close] = Except.ok twoSubsClosed ∧
    ∃ w1, run twoSubs [Op.close, Op.close] = Except.ok w1 ∧ closesOf w1.trace = [0, 1] := by
  have hwf : WellFormed twoSubs := by decide
  obtain ⟨a, b⟩ := (Close_idempotent twoSubs).2.1 twoSubsClosed rfl
  obtain ⟨w1, h1, h2⟩ := (Close_idempotent twoSubs).2.2 hwf
  exact ⟨hwf, rfl, a, b, w1, h1, h2⟩

/-- C7 (no operation panics): every sequence of calls from `NewPubSub` runs to
a state, and any further call from that state returns normally as well; the
send-on-closed and close-of-closed faults are never raised. -/
theorem no_panic {T : Type} (ops : List (Op T)) (op : Op T) :
    ∃ w w1, run (NewPubSub : World T) ops = Except.ok w ∧ step w op = Except.ok w1 ∧
      run (NewPubSub : World T) (ops ++ [op]) = Except.ok w1 := by
  obtain ⟨w, h, hwf⟩ := run_wf ops (NewPubSub : World T) WellFormed_NewPubSub
  obtain ⟨w1, h1, _⟩ := step_wf w op hwf
  refine ⟨w, w1, h, h1, ?_⟩
  rw [run_append ops [op] NewPubSub w h]
  simp [run, h1]

/-- C8 (reachable-state invariant): in every state reached from `NewPubSub`,
every registered endpoint is a live channel whose closed mark equals the
broadcaster flag (none closed while open, all closed once closed), and the
log holds at most one `close` per endpoint. -/
theorem reachable_invariant {T : Type} (ops : List (Op T)) :
    ∃ w, run (NewPubSub : World T) ops = Except.ok w ∧
      (w.ps.closed = false → ∀ h ∈ w.ps.Subscribers, isClosed w h = some false) ∧
      (w.ps.closed = true → ∀ h ∈ w.ps.Subscribers, isClosed w h = some true) ∧
      (closesOf w.trace).Nodup ∧
      closesOf w.trace = (if w.ps.closed then w.ps.Subscribers else []) := by
  obtain ⟨w, h, hwf⟩ := run_wf ops (NewPubSub : World T) WellFormed_NewPubSub
  have ht := run_closes ops (NewPubSub : World T) w WellFormed_NewPubSub rfl h
  refine ⟨w, h, ?_, ?_, ?_, ht⟩
  · intro ho a ha
    rw [← ho]; exact hwf.2 a ha
  · intro hc a ha
    rw [← hc]; exact hwf.2 a ha
  · rw [ht]
    split
    · exact hwf.1
    · exact List.nodup_nil

/-- C9, the claim as stated fails: on a new broadcaster, which is open and has
no subscriber, `Publish 7` returns normally and leaves the delivered
sequence of every endpoint unchanged although `closed` is false. -/
theorem Publish_unchanged_iff_closed_fails :
    ¬ ((∃ w1, Publish (NewPubSub : World Nat) 7 = Except.ok w1 ∧
          ∀ h, deliveredTo w1 h = deliveredTo (NewPubSub : World Nat) h) ↔
        (NewPubSub : World Nat).ps.closed = true) := by
  intro h
  have hc := h.mp ⟨NewPubSub, rfl, fun _ => rfl⟩
  simp [NewPubSub] at hc

/-- C9 as amended: on every well-formed state `Publish v` returns normally and
leaves all delivered sequences unchanged exactly when the broadcaster is closed
or has no subscriber; when closed it changes nothing at all, and when open it
appends `v` once to what each registered endpoint has been delivered and
touches no other endpoint. -/
theorem Publish_unchanged_iff_closed_or_empty {T : Type} (w : World T) (v : T)
    (hwf : WellFormed w) :
    ∃ w1, Publish w v = Except.ok w1 ∧
      ((∀ h, deliveredTo w1 h = deliveredTo w h) ↔
        (w.ps.closed = true ∨ w.ps.Subscribers = [])) ∧
      (w.ps.closed = true → w1 = w) ∧
      (w.ps.closed = false →
        (∀ h ∈ w.ps.Subscribers, ∃ d, deliveredTo w h = some d ∧
          deliveredTo w1 h = some (d ++ [v])) ∧
        (∀ h, h ∉ w.ps.Subscribers → deliveredTo w1 h = deliveredTo w h)) := by
  by_cases hc : w.ps.closed = true
  · refine ⟨w, Publish_closed w v hc, ?_, fun _ => rfl, ?_⟩
    · exact ⟨fun _ => Or.inl hc, fun _ _ => rfl⟩
    · intro ho
      rw [ho] at hc
      cases hc
  · have ho : w.ps.closed = false := by simpa using hc
    obtain ⟨w1, hp, _, _, _, hin, hout⟩ := Publish_open w v hwf ho
    have hdel : ∀ h ∈ w.ps.Subscribers, ∃ d, deliveredTo w h = some d ∧
        deliveredTo w1 h = some (d ++ [v]) := by
      intro h hh
      obtain ⟨c, hcc, _⟩ := open_of_wf w hwf ho h hh
      exact ⟨c.delivered, by simp [deliveredTo, hcc], by simp [deliveredTo, hin h hh c hcc]⟩
    have hrest : ∀ h, h ∉ w.ps.Subscribers → deliveredTo w1 h = deliveredTo w h := by
      intro h hh
      simp [deliveredTo, hout h hh]
    refine ⟨w1, hp, ⟨?_, ?_⟩, fun h => absurd h hc, fun _ => ⟨hdel, hrest⟩⟩
    · intro hall
      right
      cases hsub : w.ps.Subscribers with
      | nil => rfl
      | cons a rest =>
        exfalso
        have ha : a ∈ w.ps.Subscribers := by rw [hsub]; exact List.mem_cons_self a rest
        obtain ⟨d, hd, hd1⟩ := hdel a ha
        rw [hall a, hd] at hd1
        have := congrArg List.length (Option.some.inj hd1)
        simp at this
    · intro hor
      rcases hor with h1 | h1
      · exact absurd h1 hc
      · intro h
        exact hrest h (by rw [h1]; exact List.not_mem_nil h)

/-- Witness for C9 as amended: an open broadcaster with two subscribers that
each hold `[5]`; `Publish 9` hands 9 to both. -/
theorem Publish_unchanged_iff_closed_or_empty_witness :
    WellFormed twoSubs ∧
    ∃ w1, Publish twoSubs 9 = Except.ok w1 ∧
      deliveredTo w1 0 = some [5, 9] ∧ deliveredTo w1 1 = some [5, 9] := by
  have hwf : WellFormed twoSubs := by decide
  obtain ⟨w1, h1, _, _, h4⟩ := Publish_unchanged_iff_closed_or_empty twoSubs 9 hwf
  obtain ⟨h5, _⟩ := h4 rfl
  obtain ⟨d0, e0, r0⟩ := h5 0 (by decide)
  obtain ⟨d1, e1, r1⟩ := h5 1 (by decide)
  have a0 : d0 = [5] := (Option.some.inj e0).symm
  have a1 : d1 = [5] := (Option.some.inj e1).symm
  subst a0
  subst a1
  exact ⟨hwf, w1, h1, r0, r1⟩

/-- C10 (late-join exclusion): take a state `w` reached from `NewPubSub` that is
open, perform `Publish v`, then any further calls, then a `Subscribe` that
returns endpoint `h`.  The sends of that `Publish` went to the endpoints
registered in `w` and to no other, `h` is not one of them and did not exist
when `v` was published, `h` starts with nothing delivered, and after any later
calls `h` has been delivered exactly the values published after its
`Subscribe` and before the first `Close`. -/
theorem late_join_exclusion {T : Type} (pre mid post : List (Op T)) (w w1 w2 : World T)
    (v : T) (h : Nat)
    (hreach : run (NewPubSub : World T) pre = Except.ok w) (ho : w.ps.closed = false)
    (hpub : Publish w v = Except.ok w1) (hmid : run w1 mid = Except.ok w2)
    (hsub : (Subscribe w2).2 = some h) :
    w1.trace = w.trace ++ w.ps.Subscribers.map (fun e => Event.send e v) ∧
    (∀ e, e ∉ w.ps.Subscribers → deliveredTo w1 e = deliveredTo w e) ∧
    h ∉ w.ps.Subscribers ∧ deliveredTo w1 h = none ∧
    deliveredTo (Subscribe w2).1 h = some [] ∧
    ∃ w3, run (Subscribe w2).1 post = Except.ok w3 ∧
      deliveredTo w3 h = some (publishedBeforeClose post) := by
  have hwf := reachable_wf pre w hreach
  obtain ⟨w1b, hp, _, htr, hlen, _, hout⟩ := Publish_open w v hwf ho
  rw [hp] at hpub
  have e1 : w1b = w1 := Except.ok.inj hpub
  subst e1
  have hwf1 := WellFormed_Publish w w1b v hwf hp
  obtain ⟨w2b, hm, hwf2⟩ := run_wf mid w1b hwf1
  rw [hm] at hmid
  have e2 : w2b = w2 := Except.ok.inj hmid
  subst e2
  have hmono := run_chans_length mid w1b w2b hwf1 hm
  obtain ⟨_, hfresh, hmem, hopen, hd⟩ := Subscribe_some w2b h hsub
  have hge : w.chans.length ≤ h := by omega
  have hnot : h ∉ w.ps.Subscribers := by
    intro hh
    obtain ⟨c, hc, _⟩ := open_of_wf w hwf ho h hh
    have := getElem?_lt_of_some hc
    omega
  obtain ⟨w3, hrun, _, _, hd3⟩ :=
    run_delivers post (Subscribe w2b).1 h [] (WellFormed_Subscribe w2b hwf2) hopen hmem hd
  refine ⟨htr, ?_, hnot, ?_, hd, w3, hrun, by simpa using hd3⟩
  · intro e he
    simp [deliveredTo, hout e he]
  · have : w1b.chans.length ≤ h := by omega
    simp [deliveredTo, List.getElem?_eq_none this]

/-- Witness for C10: one subscriber gets 5; a second one joins afterwards and
sees only the later 6. -/
theorem late_join_exclusion_witness :
    run (NewPubSub : World Nat) [Op.subscribe] = Except.ok oneSub ∧
    oneSub.ps.closed = false ∧
    Publish oneSub 5 = Except.ok oneSubGot ∧
    run oneSubGot [] = Except.ok oneSubGot ∧
    (Subscribe oneSubGot).2 = some 1 ∧
    deliveredTo oneSubGot 1 = none ∧
    deliveredTo (Subscribe oneSubGot).1 1 = some [] ∧
    ∃ w3, run (Subscribe oneSubGot).1 [Op.publish 6, Op.close, Op.publish 8] = Except.ok w3 ∧
      deliveredTo w3 1 = some [6] := by
  have key := late_join_exclusion [Op.subscribe] [] [Op.publish 6, Op.close, Op.publish 8]
    oneSub oneSubGot oneSubGot 5 1 rfl rfl rfl rfl rfl
  exact ⟨rfl, rfl, rfl, rfl, rfl, key.2.2.2.1, key.2.2.2.2.1, key.2.2.2.2.2⟩

/-- C11 (two-state machine): `NewPubSub` is open with an empty registry;
`Subscribe` and `Publish` never change the closed flag; `Close` sets it; no
call and no sequence of calls takes a closed state to an open one; and along
every execution from `NewPubSub`, once the flag is set after a prefix of the
calls it is still set after any longer prefix. -/
theorem closed_flag_monotone {T : Type} (w : World T) (v : T) (op : Op T)
    (pre post : List (Op T)) :
    ((NewPubSub : World T).ps.closed = false ∧ (NewPubSub : World T).ps.Subscribers = []) ∧
    (Subscribe w).1.ps.closed = w.ps.closed ∧
    (∀ w1, Publish w v = Except.ok w1 → w1.ps.closed = w.ps.closed) ∧
    (∀ w1, Close w = Except.ok w1 → w1.ps.closed = true) ∧
    (∀ w1, step w op = Except.ok w1 → w.ps.closed = true → w1.ps.closed = true) ∧
    (∀ w1, run w post = Except.ok w1 → w.ps.closed = true → w1.ps.closed = true) ∧
    ∃ w1 w2, run (NewPubSub : World T) pre = Except.ok w1 ∧
      run (NewPubSub : World T) (pre ++ post) = Except.ok w2 ∧
      (w1.ps.closed = true → w2.ps.closed = true) := by
  refine ⟨⟨rfl, rfl⟩, ?_, ?_, ?_, ?_, ?_, ?_⟩
  · by_cases hc : w.ps.closed = true
    · rw [Subscribe_closed w hc]
    · have ho : w.ps.closed = false := by simpa using hc
      rw [Subscribe_open w ho]
  · intro w1 h
    rw [Publish_ps w w1 v h]
  · exact fun w1 h => Close_sets_closed w w1 h
  · intro w1 h hc
    rw [step_closed w op hc] at h
    cases h
    exact hc
  · intro w1 h hc
    rw [run_closed w post hc] at h
    cases h
    exact hc
  · obtain ⟨w1, h1, hwf1⟩ := run_wf pre (NewPubSub : World T) WellFormed_NewPubSub
    obtain ⟨w2, h2, _⟩ := run_wf post w1 hwf1
    refine ⟨w1, w2, h1, by rw [run_append pre post NewPubSub w1 h1]; exact h2, ?_⟩
    intro hc
    rw [run_closed w1 post hc] at h2
    cases h2
    exact hc

/-- Witness for C11: `Close` takes the open sample state to the closed one,
and the closed one stays closed under further calls. -/
theorem closed_flag_monotone_witness :
    twoSubs.ps.closed = false ∧ Close twoSubs = Except.ok twoSubsClosed ∧
    twoSubsClosed.ps.closed = true ∧
    ∃ w1, run twoSubsClosed [Op.subscribe, Op.publish 3, Op.close] = Except.ok w1 ∧
      w1.ps.closed = true := by
  have key := (closed_flag_monotone twoSubsClosed 3 Op.close []
    [Op.subscribe, Op.publish 3, Op.close]).2.2.2.2.2.1
  exact ⟨rfl, rfl, rfl, twoSubsClosed, rfl, key twoSubsClosed rfl rfl⟩

/-- C12: on an open broadcaster `Subscribe` returns an endpoint `r`, and the new
registry is the old one followed by `r` (so one longer, in subscribe order);
`r` did not exist before and is now an open channel with nothing delivered;
every other channel cell and the closed flag are unchanged; and on a
well-formed state `r` was not registered before and the result is well
formed. -/
theorem Subscribe_appends_one {T : Type} (w : World T) (ho : w.ps.closed = false) :
    ∃ r, (Subscribe w).2 = some r ∧
      (Subscribe w).1.ps.Subscribers = w.ps.Subscribers ++ [r] ∧
      (Subscribe w).1.ps.Subscribers.length = w.ps.Subscribers.length + 1 ∧
      (Subscribe w).1.ps.closed = w.ps.closed ∧
      w.chans[r]? = none ∧
      (Subscribe w).1.chans[r]? = some { delivered := [], closed := false } ∧
      (Subscribe w).1.chans.length = w.chans.length + 1 ∧
      (∀ h, h ≠ r → (Subscribe w).1.chans[h]? = w.chans[h]?) ∧
      (WellFormed w → r ∉ w.ps.Subscribers ∧ WellFormed (Subscribe w).1) := by
  refine ⟨w.chans.length, ?_, ?_, ?_, ?_, ?_, ?_, ?_, ?_, ?_⟩
  · rw [Subscribe_open w ho]
  · rw [Subscribe_open w ho]
  · rw [Subscribe_open w ho]; simp
  · rw [Subscribe_open w ho]
  · exact List.getElem?_eq_none (Nat.le_refl _)
  · rw [Subscribe_open w ho]; simp
  · rw [Subscribe_open w ho]; simp
  · intro h hne
    rw [Subscribe_open w ho]
    simp only
    by_cases hlt : h < w.chans.length
    · exact List.getElem?_append_left hlt
    · have h1 : (w.chans ++ [({ delivered := [], closed := false } : Chan T)]).length ≤ h := by
        simp only [List.length_append, List.length_singleton]
        omega
      have h2 : w.chans.length ≤ h := by omega
      rw [List.getElem?_eq_none h1, List.getElem?_eq_none h2]
  · intro hwf
    refine ⟨?_, WellFormed_Subscribe w hwf⟩
    intro hm
    obtain ⟨c, hc, _⟩ := open_of_wf w hwf ho _ hm
    have := getElem?_lt_of_some hc
    omega

/-- Witness for C12: subscribing to the open sample state with two
subscribers returns handle 2 and gives the registry `[0, 1, 2]`. -/
theorem Subscribe_appends_one_witness :
    twoSubs.ps.closed = false ∧ (Subscribe twoSubs).2 = some 2 ∧
    (Subscribe twoSubs).1.ps.Subscribers = [0, 1, 2] ∧
    ∃ r, (Subscribe twoSubs).2 = some r ∧
      (Subscribe twoSubs).1.chans[r]? = some { delivered := [], closed := false } := by
  obtain ⟨r, h1, _, _, _, _, h6, _⟩ := Subscribe_appends_one twoSubs rfl
  exact ⟨rfl, rfl, rfl, r, h1, h6⟩

/-- C13 (no endpoint is ever removed): for every state and every call that
returns, the registry before is a prefix of the registry after, and so along
every sequence of calls; `Publish` and `Close` leave the registry identical,
`Close` delivers nothing and sets the flag; on a well-formed state every call
does return. -/
theorem registry_only_grows {T : Type} (w : World T) (op : Op T) (v : T)
    (ops : List (Op T)) :
    (∀ w1, step w op = Except.ok w1 → w.ps.Subscribers <+: w1.ps.Subscribers) ∧
    (∀ w1, run w ops = Except.ok w1 → w.ps.Subscribers <+: w1.ps.Subscribers) ∧
    (∀ w1, Publish w v = Except.ok w1 → w1.ps.Subscribers = w.ps.Subscribers) ∧
    (∀ w1, Close w = Except.ok w1 →
      w1.ps.Subscribers = w.ps.Subscribers ∧ w1.ps.closed = true ∧
      ∀ i, deliveredTo w1 i = deliveredTo w i) ∧
    (WellFormed w → ∃ w1 w2, step w op = Except.ok w1 ∧ run w ops = Except.ok w2) := by
  refine ⟨fun w1 h => step_registry_grows w w1 op h, fun w1 h => run_registry_grows ops w w1 h, ?_, ?_, ?_⟩
  · intro w1 h
    rw [Publish_ps w w1 v h]
  · intro w1 h
    exact ⟨(Close_frame w w1 h).1, Close_sets_closed w w1 h, (Close_frame w w1 h).2⟩
  · intro hwf
    obtain ⟨w1, h1, _⟩ := step_wf w op hwf
    obtain ⟨w2, h2, _⟩ := run_wf ops w hwf
    exact ⟨w1, w2, h1, h2⟩

/-- Witness for C13: from one subscriber holding 5, a run of `Subscribe`,
`Publish 6`, `Close`, `Subscribe` ends with a registry that extends `[0]`. -/
theorem registry_only_grows_witness :
    ∃ w1, run oneSubGot [Op.subscribe, Op.publish 6, Op.close, Op.subscribe] = Except.ok w1 ∧
      w1.ps.Subscribers = [0, 1] ∧ oneSubGot.ps.Subscribers <+: w1.ps.Subscribers := by
  obtain ⟨w1, h1⟩ : ∃ w1, run oneSubGot [Op.subscribe, Op.publish 6, Op.close, Op.subscribe]
      = Except.ok w1 ∧ w1.ps.Subscribers = [0, 1] := ⟨_, rfl, rfl⟩
  exact ⟨w1, h1.1, h1.2,
    (registry_only_grows oneSubGot Op.close 6
      [Op.subscribe, Op.publish 6, Op.close, Op.subscribe]).2.1 w1 h1.1⟩

/-- C14: `Publish` on an open well-formed broadcaster hands the value over once
per registered endpoint, one at a time in registry order.  With receivers
that all accept it returns, agrees with `Publish`, and the channel operations
it performed are exactly one send per registered endpoint in registry order.
If the registry is `before ++ j :: after`, the receivers of `before` accept
and the receiver of `j` never does, the call does not return: it stays parked
in the send on `j`, the endpoints of `before` have got the value, in order,
and neither `j` nor any endpoint after it (nor any other) has. -/
theorem Publish_hands_off_in_order {T : Type} (ready : Nat → Bool) (w : World T) (v : T)
    (hwf : WellFormed w) (ho : w.ps.closed = false) :
    PublishWith (fun _ => true) w v = Outcome.ofExcept (Publish w v) ∧
    ((∀ h ∈ w.ps.Subscribers, ready h = true) →
      ∃ w1, PublishWith ready w v = Outcome.returned w1 ∧ Publish w v = Except.ok w1 ∧
        w1.trace = w.trace ++ w.ps.Subscribers.map (fun h => Event.send h v)) ∧
    (∀ before j after, w.ps.Subscribers = before ++ j :: after →
      (∀ h ∈ before, ready h = true) → ready j = false →
      ∃ w1, PublishWith ready w v = Outcome.blocked w1 j ∧ w1.ps = w.ps ∧
        w1.trace = w.trace ++ before.map (fun h => Event.send h v) ∧
        (∀ h ∈ before, ∃ d, deliveredTo w h = some d ∧ deliveredTo w1 h = some (d ++ [v])) ∧
        (∀ h ∈ j :: after, deliveredTo w1 h = deliveredTo w h) ∧
        (∀ h, h ∉ before → deliveredTo w1 h = deliveredTo w h)) := by
  have hopen := open_of_wf w hwf ho
  refine ⟨?_, ?_, ?_⟩
  · simp only [PublishWith, Publish, ho]
    exact sendAllWith_all_ready _ v _ w (fun _ _ => rfl)
  · intro hr
    obtain ⟨w1, hp, _, htr, _⟩ := Publish_open w v hwf ho
    refine ⟨w1, ?_, hp, htr⟩
    have h1 := sendAllWith_all_ready ready v w.ps.Subscribers w hr
    have h2 : sendAll v w.ps.Subscribers w = Except.ok w1 := by
      simpa [Publish, ho] using hp
    simp only [PublishWith, ho]
    rw [h2] at h1
    simpa [Outcome.ofExcept] using h1
  · intro before j after hsub hr hj
    have hnd : (before ++ j :: after).Nodup := hsub ▸ hwf.1
    have hndb : before.Nodup := (List.nodup_append.mp hnd).1
    have hdisj : ∀ h ∈ j :: after, h ∉ before := by
      intro h hh hb
      exact (List.nodup_append.mp hnd).2.2 hb hh
    have hopenb : ∀ h ∈ before, ∃ c, w.chans[h]? = some c ∧ c.closed = false := by
      intro h hh
      exact hopen h (by rw [hsub]; exact List.mem_append_left _ hh)
    obtain ⟨w1, hrun, hps, htr, _, hin, hout⟩ := sendAll_spec v before w hndb hopenb
    have hdel : ∀ h, h ∉ before → deliveredTo w1 h = deliveredTo w h := by
      intro h hh
      simp [deliveredTo, hout h hh]
    have hjnot : j ∉ before := hdisj j (List.mem_cons_self j after)
    obtain ⟨c, hc, hcl⟩ := hopen j (by rw [hsub]; simp)
    have hc1 : w1.chans[j]? = some c := by rw [hout j hjnot]; exact hc
    have hb := sendAllWith_all_ready ready v before w hr
    rw [hrun] at hb
    refine ⟨w1, ?_, hps, htr, ?_, fun h hh => hdel h (hdisj h hh), hdel⟩
    · simp only [PublishWith, ho, hsub]
      rw [sendAllWith_append ready v before (j :: after) w w1 (by simpa [Outcome.ofExcept] using hb)]
      simp [sendAllWith, chanSendWith, chanSend_ok w1 j v c hc1 hcl, hj]
    · intro h hh
      obtain ⟨c2, hc2, _⟩ := hopenb h hh
      exact ⟨c2.delivered, by simp [deliveredTo, hc2], by simp [deliveredTo, hin h hh c2 hc2]⟩

/-- Witness for C14: two subscribers holding `[5]`; the receiver of endpoint 0
accepts 9 and the receiver of endpoint 1 never does, so the call stays parked
on endpoint 1, which still holds `[5]`. -/
theorem Publish_hands_off_in_order_witness :
    WellFormed twoSubs ∧ twoSubs.ps.closed = false ∧
    ∃ w1, PublishWith (fun h => h == 0) twoSubs 9 = Outcome.blocked w1 1 ∧
      deliveredTo w1 0 = some [5, 9] ∧ deliveredTo w1 1 = some [5] := by
  have hwf : WellFormed twoSubs := by decide
  obtain ⟨w1, h1, _, _, h4, h5, _⟩ :=
    (Publish_hands_off_in_order (fun h => h == 0) twoSubs 9 hwf rfl).2.2 [0] 1 [] rfl
      (by decide) rfl
  obtain ⟨d, e, r⟩ := h4 0 (by decide)
  have a : d = [5] := (Option.some.inj e).symm
  subst a
  exact ⟨hwf, rfl, w1, h1, r, h5 1 (by decide)⟩

/-- C15 (thread safety), in the interleaving model of concurrent callers, for
every start state, every list of concurrent calls and every schedule.  The
mutex state agrees with who is inside a call.  While one goroutine is inside
`Subscribe` or `Close` (between `Lock` and the deferred `Unlock`), no other
goroutine is inside any call and no other goroutine can move, so these calls
are totally ordered against each other and against `Publish`.  While a
goroutine is inside `Publish` (between `RLock` and the deferred `RUnlock`), no
goroutine is inside `Subscribe` or `Close`, and no step of any goroutine
changes the registry or the flag or closes an endpoint.  A goroutine that is
not inside a call does not touch the broadcaster.  Two `Publish` calls can be
inside at the same time. -/
theorem lock_discipline {T : Type} (w : World T) (ops : List (Op T)) (sched : List Nat)
    (v1 v2 : T) :
    LockInv (reached w ops sched) ∧
    (∀ (i j : Nat) (pi pj : Pc T), i ≠ j →
      (reached w ops sched).threads[i]? = some pi →
      (reached w ops sched).threads[j]? = some pj → pj.holdsW = true →
      pi.holdsW = false ∧ pi.holdsR = false ∧
        stepThread (reached w ops sched) i = reached w ops sched) ∧
    (∀ (i j : Nat) (pi pj : Pc T),
      (reached w ops sched).threads[i]? = some pi →
      (reached w ops sched).threads[j]? = some pj → pj.holdsR = true →
      pi.holdsW = false ∧
        (stepThread (reached w ops sched) i).world.ps = (reached w ops sched).world.ps ∧
        closesOf (stepThread (reached w ops sched) i).world.trace
          = closesOf (reached w ops sched).world.trace ∧
        ∀ h, isClosed (stepThread (reached w ops sched) i).world h
          = isClosed (reached w ops sched).world h) ∧
    (∀ (i : Nat) (pi : Pc T), (reached w ops sched).threads[i]? = some pi →
      pi.holdsW = false → pi.holdsR = false →
      (stepThread (reached w ops sched) i).world = (reached w ops sched).world) ∧
    ((reached w [Op.publish v1, Op.publish v2] [0, 1]).threads
        = [Pc.pubCheck v1, Pc.pubCheck v2] ∧
      (reached w [Op.publish v1, Op.publish v2] [0, 1]).mu
        = { writer := false, readers := 2 }) := by
  have hinv := LockInv_reached w ops sched
  refine ⟨hinv, ?_, ?_, ?_, ⟨rfl, rfl⟩⟩
  · intro i j pi pj hij hi hj hjW
    obtain ⟨a, b⟩ := writer_excludes _ hinv i j pi pj hij hi hj hjW
    refine ⟨a, b, ?_⟩
    have hmu := (LockInv_holds _ hinv j pj hj).1 hjW
    have e := stepPc_blocked (reached w ops sched).mu (reached w ops sched).world pi hmu a b
    simp only [stepThread, hi, e]
    rw [set_getElem?_same _ i pi hi]
  · intro i j pi pj hi hj hjR
    have a := reader_excludes _ hinv i j pi pj hi hj hjR
    have e := stepPc_no_writer (reached w ops sched).mu (reached w ops sched).world pi a
    simp only [stepThread, hi]
    exact ⟨a, e⟩
  · intro i pi hi hW hR
    simp only [stepThread, hi]
    exact stepPc_outside _ _ pi hW hR

/-- Witness for C15: two publishers and a closer start on two subscribers.
Publisher 0 takes the read lock, the closer is refused the write lock,
publisher 2 joins, publisher 0 sends to endpoint 0.  Both publishers are
inside, the closer has not moved, and a further attempt of the closer changes
nothing. -/
theorem lock_discipline_witness :
    (reached twoSubs [Op.publish 7, Op.close, Op.publish 8] [0, 1, 2, 0, 0]).threads
      = [Pc.pubLoop 7 [1], Pc.start Op.close, Pc.pubCheck 8] ∧
    (reached twoSubs [Op.publish 7, Op.close, Op.publish 8] [0, 1, 2, 0, 0]).mu
      = { writer := false, readers := 2 } ∧
    deliveredTo (reached twoSubs [Op.publish 7, Op.close, Op.publish 8] [0, 1, 2, 0, 0]).world 0
      = some [5, 7] ∧
    (stepThread (reached twoSubs [Op.publish 7, Op.close, Op.publish 8] [0, 1, 2, 0, 0]) 1).world.ps
      = (reached twoSubs [Op.publish 7, Op.close, Op.publish 8] [0, 1, 2, 0, 0]).world.ps := by
  have key := (lock_discipline twoSubs [Op.publish 7, Op.close, Op.publish 8] [0, 1, 2, 0, 0]
    1 2).2.2.1 1 0 (Pc.start Op.close) (Pc.pubLoop 7 [1]) rfl rfl rfl
  exact ⟨rfl, rfl, rfl, key.2.1⟩

end PubSubModel
